import Mathlib

/-!
Verification of `.github/workflows/auto_update_price_and_context_window/update_groq.py`.

The script scrapes HTML tables about Groq models, normalizes cell values
(prices, dates, token counts, booleans), aggregates per-category records, and
merges the result into a raw JSON registry text by pattern-based text surgery.

This file gives a shallow embedding of the pure computational core of that
script.  Raw text is modelled as `List Char`; Python dicts whose iteration
order matters are modelled as association lists in insertion order; the two
regular expressions used for the text surgery (`"<id>":\s*\{.*?\n\s*\},` with
DOTALL for block replacement and `"<id>":\s*\{` for insertion) are modelled by
direct scanning functions that reproduce Python's leftmost / lazy / replace-all
semantics for these particular patterns.  The model treats the identifier in a
pattern as a literal string, which is exact for identifiers containing no
regex metacharacters (the theorems about identifier-indexed patterns restrict
to such identifiers; the insertion pattern applies `re.escape`, so it is
literal for every identifier).  Numeric cell values are modelled with `ℚ`
under exact decimal semantics.
-/

namespace UpdateGroq

/-! ## Basic character and string utilities (Python primitives used by the script) -/

/-- Raw text, the `str` contents manipulated by the script. -/
abbrev Raw := List Char

/-- The ASCII whitespace characters matched by Python's `\s` and stripped by
`str.strip` (space, tab, newline, carriage return, vertical tab, form feed). -/
def isPySpace (c : Char) : Bool :=
  c = ' ' || c = '\t' || c = '\n' || c = '\x0d' || c = '\x0b' || c = '\x0c'

/-- Python `str.lower` for the ASCII texts handled by the script. -/
def pyLower (s : Raw) : Raw := s.map Char.toLower

/-- Python `str.strip`: drop leading and trailing whitespace. -/
def pyStrip (s : Raw) : Raw :=
  ((s.dropWhile isPySpace).reverse.dropWhile isPySpace).reverse

/-- If `p` is a leading segment of `s`, return the remainder of `s`. -/
def stripPfx : Raw → Raw → Option Raw
  | [], s => some s
  | _ :: _, [] => none
  | p :: ps, c :: cs => if p = c then stripPfx ps cs else none

/-- Python's `needle in hay` substring test. -/
def isSub (needle hay : Raw) : Bool :=
  match hay with
  | [] => needle.isEmpty
  | _ :: t => (stripPfx needle hay).isSome || isSub needle t

/-- Python `str.isdigit` for ASCII text: nonempty and all decimal digits. -/
def pyIsDigit (s : Raw) : Bool := !s.isEmpty && s.all Char.isDigit

/-- Numeric value of a digit string, as read by Python `int`. -/
def digitsVal (s : Raw) : ℕ := s.foldl (fun acc c => 10 * acc + c.toNat - '0'.toNat) 0

/-! ## Value normalizers (§ value conversion helpers of the script) -/

/-- `_convert_date`: split on `/` and rebuild as `20YY-MM-DD`.  The Python code
indexes parts `[0]`, `[1]`, `[2]`; an input with fewer than three parts raises
`IndexError`, modelled as `none`. -/
def convertDate (date : Raw) : Option Raw :=
  match date.splitOn '/' with
  | p0 :: p1 :: p2 :: _ => some ('2' :: '0' :: p2 ++ '-' :: p0 ++ '-' :: p1)
  | _ => none

/-- Decimal-numeral parser modelling Python `float` on the plain decimal
numerals the script feeds it: optional sign, digits with at most one point,
at least one digit overall.  Any other text is a `ValueError`, i.e. `none`. -/
def parseDecCore (s : Raw) : Option ℚ :=
  match s.dropWhile Char.isDigit with
  | [] =>
      if (s.takeWhile Char.isDigit).isEmpty then none
      else some (digitsVal (s.takeWhile Char.isDigit))
  | c :: frac =>
      if c = '.' && frac.all Char.isDigit &&
          !((s.takeWhile Char.isDigit).isEmpty && frac.isEmpty) then
        some ((digitsVal (s.takeWhile Char.isDigit) : ℚ) +
          (digitsVal frac : ℚ) / (10 : ℚ) ^ frac.length)
      else none

/-- Python `float` on a (possibly signed) decimal numeral. -/
def parseDec (s : Raw) : Option ℚ :=
  match s with
  | c :: t =>
      if c = '-' then (parseDecCore t).map (fun q => -q)
      else if c = '+' then parseDecCore t
      else parseDecCore (c :: t)
  | [] => parseDecCore []

/-- Rounding to 8 decimal places, modelling `float(f"{x:.8f}")` under exact
decimal arithmetic. -/
def rnd8 (q : ℚ) : ℚ := (round (q * 100000000) : ℤ) / 100000000

/-- `_convert_price`: keep only the first line, delete every `$` and `*`,
strip whitespace, parse as a decimal, divide by `divisor`, round to 8 decimal
places.  A parse failure is Python's `ValueError`, modelled as `none`. -/
def convertPrice (price : Raw) (divisor : ℚ) : Option ℚ :=
  let firstLine := price.takeWhile (fun c => c ≠ '\n')
  let cleaned := pyStrip ((firstLine.filter (fun c => c ≠ '$')).filter (fun c => c ≠ '*'))
  (parseDec cleaned).map (fun v => rnd8 (v / divisor))

/-! ## JSON-able values and records -/

/-- A scalar value stored in a model record (Python `int`, `bool`, `str`,
`float`).  Floats are modelled as rationals under exact decimal semantics. -/
inductive JVal where
  | jInt : Int → JVal
  | jBool : Bool → JVal
  | jStr : String → JVal
  | jRat : ℚ → JVal
deriving DecidableEq, Repr

/-- A model record: a Python dict in insertion order with scalar values. -/
abbrev Record := List (String × JVal)

/-- Dict lookup (`d.get(k)` / `d[k]`), first binding wins as in a Python dict
built without duplicate keys. -/
def lookupVal : Record → String → Option JVal
  | [], _ => none
  | (k, v) :: t, key => if k = key then some v else lookupVal t key

/-- One Python dict assignment `d[k] = v`: overwrite in place if the key is
present (keeping its position), otherwise append. -/
def updOne (r : Record) (k : String) (v : JVal) : Record :=
  if r.any (fun kv => kv.1 = k) then
    r.map (fun kv => if kv.1 = k then (k, v) else kv)
  else r ++ [(k, v)]

/-- Python `dict.update` / dict union `a | b`: apply `b`'s assignments to `a`
in order. -/
def pyDictUpdate (a b : Record) : Record :=
  b.foldl (fun acc kv => updOne acc kv.1 kv.2) a

/-! ## Per-cell normalization inside `_extract_table_data` (lines 130-151)

For a mapped output column `col_name` and the raw text of the row's cell, the
script lowercases and strips the text and then dispatches on substrings of the
output field name.  `ok none` models "no assignment performed for this field";
`error` models an uncaught exception aborting the extraction. -/

def normalizeCell (colName : String) (rawText : Raw) : Except String (Option JVal) :=
  let text := pyStrip (pyLower rawText)
  if isSub "cost".toList colName.toList then
    if isSub "per_token".toList colName.toList then
      match convertPrice text 1000000 with
      | some q => .ok (some (.jRat q))
      | none => .error "ValueError: float"
    else if isSub "per_second".toList colName.toList then
      match convertPrice text 3600 with
      | some q => .ok (some (.jRat q))
      | none => .error "ValueError: float"
    else if isSub "per_character".toList colName.toList then
      match convertPrice text 1000000 with
      | some q => .ok (some (.jRat q))
      | none => .error "ValueError: float"
    else .ok none
  else if isSub "supports".toList colName.toList then
    if !(isSub "yes".toList text) && !(isSub "no".toList text) then
      .error "ValueError: invalid supports value"
    else .ok (some (.jBool (text = "yes".toList)))
  else if isSub "tokens".toList colName.toList then
    let tokens := (text.filter (fun c => c ≠ ',')).flatMap
      (fun c => if c = 'k' then ['0', '0', '0'] else [c])
    if pyIsDigit tokens then .ok (some (.jInt (digitsVal tokens))) else .ok none
  else if isSub "date".toList colName.toList then
    match convertDate text with
    | some d => .ok (some (.jStr (String.mk d)))
    | none => .error "IndexError: date"
  else .ok (some (.jStr (String.mk text)))

/-! ## Context-window post-processing (`scrape_groq_context_window`, lines 409-417) -/

/-- Does this stored value call for defaulting? (`key not in dict or dict[key] == "-"`). -/
def needsDefault (v : Option JVal) : Bool :=
  match v with
  | none => true
  | some (.jStr s) => s = "-"
  | some _ => false

/-- The per-record body of the loop at lines 409-417: when the record has
`max_input_tokens`, default a missing/placeholder `max_output_tokens` to it,
then default a missing/placeholder `max_tokens` to the (possibly just
defaulted) `max_output_tokens`. -/
def ctxPostProcess (rec : Record) : Record :=
  match lookupVal rec "max_input_tokens" with
  | none => rec
  | some vin =>
      let r1 := if needsDefault (lookupVal rec "max_output_tokens") then
          updOne rec "max_output_tokens" vin
        else rec
      if needsDefault (lookupVal r1 "max_tokens") then
        match lookupVal r1 "max_output_tokens" with
        | some vout => updOne r1 "max_tokens" vout
        | none => r1
      else r1

/-! ## Aggregation (`scrape_groq_main`, lines 503-560)

The four category scrapers produce dicts from model name to record.  The
aggregator unions them per model (later categories win), classifies a mode
from field presence, tags the provider, and projects onto the fixed schema
dropping unset fields.  The iteration order of Python's set union of keys is
arbitrary, so the embedding takes the list of model names as a parameter. -/

/-- A scraped category: model name to record. -/
abbrev ScrMap := List (String × Record)

/-- Dict lookup on a scraped category. -/
def lookupRecS : ScrMap → String → Option Record
  | [], _ => none
  | (k, v) :: t, key => if k = key then some v else lookupRecS t key

/-- `d.get(name, {})`. -/
def getRecD (m : ScrMap) (name : String) : Record := (lookupRecS m name).getD []

/-- Lines 512-517: the field-union of the per-category records for one model,
in the order pricing, capabilities, context window, reasoning (Python dict
`|`, later operand wins). -/
def aggBase (pricing capabilities contextWindow reasoning : ScrMap)
    (name : String) : Record :=
  pyDictUpdate
    (pyDictUpdate
      (pyDictUpdate (getRecD pricing name) (getRecD capabilities name))
      (getRecD contextWindow name))
    (getRecD reasoning name)

/-- The fixed output schema key order of lines 536-557. -/
def schemaKeys : List String :=
  ["max_tokens", "max_input_tokens", "max_output_tokens",
   "input_cost_per_token", "output_cost_per_token",
   "input_cost_per_second", "output_cost_per_second",
   "input_cost_per_character", "litellm_provider", "mode",
   "supports_function_calling", "supports_response_schema",
   "supports_reasoning", "supports_tool_choice"]

/-- Lines 519-558 for one model: mode classification from field presence (with
the audio-transcription branch also zeroing `output_cost_per_second`),
discarding of unclassifiable records, provider tagging, and projection onto
`schemaKeys` dropping unset fields.  `model` is the vendor-qualified
identifier, `rec` the field-union record. -/
def classifyAndProject (model : String) (rec : Record) : Option Record :=
  let step1 : Option Record :=
    if (lookupVal rec "input_cost_per_token").isSome then
      some (updOne rec "mode" (.jStr "chat"))
    else if (lookupVal rec "input_cost_per_second").isSome then
      some (updOne (updOne rec "output_cost_per_second" (.jRat 0))
        "mode" (.jStr "audio_transcription"))
    else if isSub "tts".toList model.toList then
      if (lookupVal rec "input_cost_per_character").isSome then
        some (updOne rec "mode" (.jStr "audio_speech"))
      else none
    else none
  step1.map (fun r =>
    let r2 := updOne r "litellm_provider" (.jStr "groq")
    schemaKeys.filterMap (fun k => (lookupVal r2 k).map (fun v => (k, v))))

/-- The aggregation loop of `scrape_groq_main` over a given enumeration of the
model names seen by any scraper. -/
def scrapeGroqAggregate (pricing capabilities contextWindow reasoning : ScrMap)
    (names : List String) : List (String × Record) :=
  names.filterMap (fun n =>
    (classifyAndProject ("groq/" ++ n)
        (aggBase pricing capabilities contextWindow reasoning n)).map
      (fun rec => ("groq/" ++ n, rec)))

/-! ## JSON serialization of a record (`json.dumps(d, indent=4)` plus the
reindentation loop shared by `_insert_dict_in_raw_json` (lines 174-182) and
`_update_deprecated_models_in_raw_json` (lines 248-256)) -/

/-- Decimal digits of a natural number (Python `repr` of a nonnegative int). -/
def natRepr (n : ℕ) : Raw :=
  if n = 0 then ['0']
  else (Nat.digits 10 n).reverse.map (fun d => Char.ofNat ('0'.toNat + d))

/-- Python / JSON rendering of an int. -/
def intRepr (n : Int) : Raw :=
  if n < 0 then '-' :: natRepr n.natAbs else natRepr n.toNat

/-- Fractional digits of a rational in `[0, 1)`, up to `fuel` places. -/
def fracDigits : ℚ → ℕ → Raw
  | _, 0 => []
  | q, n + 1 =>
      if q = 0 then []
      else
        let d := (⌊q * 10⌋).toNat
        Char.ofNat ('0'.toNat + d) :: fracDigits (q * 10 - d) n

/-- Rendering of a float value as JSON text.  Python prints the shortest
round-trip decimal of the binary float; the floats this script stores are
decimal fractions, rendered here exactly (up to 30 fractional digits).  No
theorem in this file depends on this rendering: the raw-text theorems restrict
to records without float fields. -/
def ratReprDec (q : ℚ) : Raw :=
  let sign : Raw := if q < 0 then ['-'] else []
  let a := |q|
  let ip := (⌊a⌋).toNat
  let fr := a - (⌊a⌋ : ℚ)
  sign ++ natRepr ip ++ '.' :: (if fr = 0 then ['0'] else fracDigits fr 30)

/-- JSON text of one scalar value, as `json.dumps` renders it. -/
def jvalText : JVal → Raw
  | .jInt n => intRepr n
  | .jBool b => if b then "true".toList else "false".toList
  | .jStr s => '"' :: s.toList ++ ['"']
  | .jRat q => ratReprDec q

/-- Four spaces (one `indent=4` level). -/
def sp4 : Raw := [' ', ' ', ' ', ' ']

/-- One entry line of `json.dumps(d, indent=4)`: four spaces, quoted key,
colon-space, value, and a comma unless it is the last entry. -/
def entryLine (k : String) (v : JVal) (isLast : Bool) : Raw :=
  sp4 ++ '"' :: k.toList ++ '"' :: ':' :: ' ' :: jvalText v ++
    (if isLast then [] else [','])

/-- The entry lines of `json.dumps(d, indent=4)` in order. -/
def entryLinesOf : Record → List Raw
  | [] => []
  | [kv] => [entryLine kv.1 kv.2 true]
  | kv :: t => entryLine kv.1 kv.2 false :: entryLinesOf t

/-- `json.dumps(d, indent=4).splitlines()`. -/
def dumpLines (r : Record) : List Raw :=
  match r with
  | [] => [['\x7b', '\x7d']]
  | _ => ['\x7b'] :: entryLinesOf r ++ [['\x7d']]

/-- The interior of the reindentation loop for lines after the first: every
line but the last gets four extra spaces and a newline, the last gets four
extra spaces and no newline. -/
def reindentMid : List Raw → Raw
  | [] => []
  | [l] => sp4 ++ l
  | l :: t => sp4 ++ l ++ '\n' :: reindentMid t

/-- The reindentation loop of lines 174-182 / 248-256: line 0 is kept
unindented and gets a newline (this branch also handles a one-line dump),
later lines go through `reindentMid`. -/
def reindentLoop : List Raw → Raw
  | [] => []
  | [l0] => l0 ++ ['\n']
  | l0 :: rest => l0 ++ '\n' :: reindentMid rest

/-- `new_model_json`: the re-indented serialization of a record. -/
def serializeBlock (r : Record) : Raw := reindentLoop (dumpLines r)

/-! ## The two regex shapes, modelled as scanners

`re.sub(r'"<id>":\s*\{.*?\n\s*\},', repl, raw, flags=re.DOTALL)` and
`re.sub(r'"<id>":\s*\{', repl, raw)` with a literal `<id>`.  Both patterns are
backtracking-free on their `\s*` (no whitespace character can begin the next
required token), so a direct leftmost scan reproduces Python's semantics,
including replace-all and resuming after each match. -/

/-- The literal head `"<id>":` of both patterns. -/
def keyPat (id : Raw) : Raw := '"' :: id ++ ['"', ':']

/-- Greedy `\s*` followed by the required `\{`: drop whitespace and demand an
opening brace (no whitespace character is a brace, so the greedy consumption
is the only parse, as in the backtracking regex). -/
def openAfter (r : Raw) : Option Raw :=
  match r.dropWhile isPySpace with
  | '\x7b' :: rest => some rest
  | _ => none

/-- Match `"<id>":\s*\{` at the head of `s`; on success return the suffix
after the opening brace. -/
def tryOpen (id : Raw) (s : Raw) : Option Raw :=
  (stripPfx (keyPat id) s).bind openAfter

/-- Scan for the lazy terminator `\n\s*\},` (DOTALL `.*?` stops at the first
position where this suffix pattern matches); return the suffix after the
comma. -/
def findTerm : Raw → Option Raw
  | [] => none
  | c :: t =>
      if c = '\n' then
        match t.dropWhile isPySpace with
        | '\x7d' :: ',' :: rest => some rest
        | _ => findTerm t
      else findTerm t

/-- Match the whole block pattern `"<id>":\s*\{.*?\n\s*\},` at the head of
`s`; on success return the suffix after the match. -/
def tryUpd (id : Raw) (s : Raw) : Option Raw :=
  (tryOpen id s).bind findTerm

theorem stripPfx_length {p s r : Raw} (h : stripPfx p s = some r) :
    r.length + p.length = s.length := by
  induction p generalizing s with
  | nil => simp [stripPfx] at h; simp [h]
  | cons a as ih =>
      cases s with
      | nil => simp [stripPfx] at h
      | cons b bs =>
          simp only [stripPfx] at h
          split at h
          · have := ih h; simp at this ⊢; omega
          · exact absurd h (by simp)

theorem findTerm_length {s r : Raw} (h : findTerm s = some r) :
    r.length < s.length := by
  induction s with
  | nil => simp [findTerm] at h
  | cons c t ih =>
      simp only [findTerm] at h
      split at h
      · split at h
        · rename_i heq
          cases h
          have h1 : (t.dropWhile isPySpace).length ≤ t.length :=
            (List.dropWhile_sublist (l := t) (p := isPySpace)).length_le
          rw [heq] at h1
          simp at h1; simp; omega
        · have := ih h; simp; omega
      · have := ih h; simp; omega

theorem openAfter_length {r t : Raw} (h : openAfter r = some t) :
    t.length < r.length := by
  unfold openAfter at h
  split at h
  · cases h
    rename_i heq
    have h1 : (r.dropWhile isPySpace).length ≤ r.length :=
      (List.dropWhile_sublist (l := r) (p := isPySpace)).length_le
    rw [heq] at h1
    simp at h1; omega
  · simp at h

theorem tryOpen_length {id s r : Raw} (h : tryOpen id s = some r) :
    r.length < s.length := by
  unfold tryOpen at h
  rcases h1 : stripPfx (keyPat id) s with _ | rest
  · rw [h1] at h; simp at h
  · rw [h1] at h
    simp only [Option.some_bind] at h
    have hl := stripPfx_length h1
    have h2 := openAfter_length h
    have h3 : 0 < (keyPat id).length := by simp [keyPat]
    omega

theorem tryUpd_length {id s r : Raw} (h : tryUpd id s = some r) :
    r.length < s.length := by
  unfold tryUpd at h
  rcases h1 : tryOpen id s with _ | rest
  · rw [h1] at h; simp at h
  · rw [h1] at h
    simp only [Option.some_bind] at h
    exact lt_trans (findTerm_length h) (tryOpen_length h1)

/-- `re.sub` for the block pattern: replace every (leftmost, non-overlapping)
match of `"<id>":\s*\{.*?\n\s*\},` by `repl`. -/
def subUpd (id repl : Raw) (s : Raw) : Raw :=
  match s with
  | [] => []
  | c :: t =>
      match h : tryUpd id (c :: t) with
      | some rest => repl ++ subUpd id repl rest
      | none => c :: subUpd id repl t
termination_by s.length
decreasing_by
  · exact tryUpd_length h
  · simp

/-- `re.sub` for the opening pattern: replace every match of `"<id>":\s*\{`
by `repl`. -/
def subIns (id repl : Raw) (s : Raw) : Raw :=
  match s with
  | [] => []
  | c :: t =>
      match h : tryOpen id (c :: t) with
      | some rest => repl ++ subIns id repl rest
      | none => c :: subIns id repl t
termination_by s.length
decreasing_by
  · exact tryOpen_length h
  · simp

/-! ## The raw-text merge (`_insert_dict_in_raw_json`,
`_update_deprecated_models_in_raw_json`) -/

/-- The parsed local registry: identifier to record, in file order. -/
abbrev Registry := List (Raw × Record)

/-- Registry lookup. -/
def lookupReg : Registry → Raw → Option Record
  | [], _ => none
  | (k, v) :: t, key => if k = key then some v else lookupReg t key

/-- The identifiers of a registry (`local_data.keys()`). -/
def keysOf (localData : Registry) : List Raw := localData.map Prod.fst

/-- The replacement text `f'"{id}": {new_model_json},'` used when a model
already exists. -/
def updReplacement (id : Raw) (r : Record) : Raw :=
  '"' :: id ++ '"' :: ':' :: ' ' :: serializeBlock r ++ [',']

/-- The replacement text `f'"{id}": {new_model_json},\n    "{next}": {{'` used
to insert a new model before its alphabetical successor. -/
def insReplacement (id : Raw) (r : Record) (next : Raw) : Raw :=
  '"' :: id ++ '"' :: ':' :: ' ' :: serializeBlock r ++ ',' :: '\n' ::
    sp4 ++ '"' :: next ++ ['"', ':', ' ', '\x7b']

/-- One iteration of the loop of `_insert_dict_in_raw_json` (lines 172-214):
replace the block of an existing identifier, or insert a new identifier at its
alphabetical position (append at end of text when it sorts last, otherwise
insert before the block of its successor). -/
def insStep (localData : Registry) (raw : Raw) (p : Raw × Record) : Raw :=
  if (keysOf localData).contains p.1 then
    subUpd p.1 (updReplacement p.1 p.2) raw
  else
    let modelKeys := keysOf localData ++ [p.1]
    let sorted := List.insertionSort (· ≤ ·) modelKeys
    let idx := sorted.indexOf p.1
    if idx = sorted.length - 1 then
      raw ++ updReplacement p.1 p.2 ++ ['\n']
    else
      let next := sorted.getD (idx + 1) []
      subIns next (insReplacement p.1 p.2 next) raw

/-- `_insert_dict_in_raw_json`: fold the per-model step over the remote data
in dict order, against the fixed parsed local data. -/
def insertDictInRawJson (remoteData : List (Raw × Record)) (localData : Registry)
    (raw : Raw) : Raw :=
  remoteData.foldl (insStep localData) raw

/-- One iteration of the loop of `_update_deprecated_models_in_raw_json`
(lines 238-266): skip identifiers absent from the local data or already
carrying a `deprecation_date`; otherwise replace the identifier's block with
the local record updated by the scraped date dict. -/
def depStep (localData : Registry) (raw : Raw) (p : Raw × Record) : Raw :=
  match lookupReg localData p.1 with
  | none => raw
  | some r =>
      if (lookupVal r "deprecation_date").isSome then raw
      else subUpd p.1 (updReplacement p.1 (pyDictUpdate r p.2)) raw

/-- `_update_deprecated_models_in_raw_json`. -/
def updateDeprecatedModelsInRawJson (deprecationData : List (Raw × Record))
    (localData : Registry) (raw : Raw) : Raw :=
  deprecationData.foldl (depStep localData) raw

/-- The full merge of `main` (lines 576-581): insertion/update pass followed by
the deprecation pass, with the same parsed local data. -/
def fullMerge (remoteData deprecationData : List (Raw × Record))
    (localData : Registry) (raw : Raw) : Raw :=
  updateDeprecatedModelsInRawJson deprecationData localData
    (insertDictInRawJson remoteData localData raw)

/-! ## Canonical registry text

The serialization style of the registry file that the script's patterns are
coupled to: a JSON object whose top-level entries are 4-space indented blocks
in the style produced by the script itself. -/

/-- One top-level entry of the registry text. -/
def canonEntry (p : Raw × Record) : Raw :=
  sp4 ++ '"' :: p.1 ++ '"' :: ':' :: ' ' :: serializeBlock p.2 ++ [',', '\n']

/-- The registry text for a parsed registry. -/
def canonRaw (es : Registry) : Raw :=
  '\x7b' :: '\n' :: (es.map canonEntry).join ++ ['\x7d']

/-- Closed form of one interior line of a serialized block (eight spaces,
quoted key, colon-space, value, comma unless last, newline). -/
def lineText (k : String) (v : JVal) (isLast : Bool) : Raw :=
  sp4 ++ entryLine k v isLast ++ ['\n']

/-- Closed form of the interior lines of a serialized nonempty block. -/
def linesText : Record → Raw
  | [] => []
  | [kv] => lineText kv.1 kv.2 true
  | kv :: t => lineText kv.1 kv.2 false ++ linesText t

/-! ## Safety conditions

The embedding of the regexes is literal in the identifier, and the block
structure arguments require the serialized entries to not fabricate pattern
matches.  `safeId` restricts identifiers to regex-literal characters that also
cannot collide with JSON punctuation; `safeRecord` keeps keys and string
values free of quotes, backslashes and newlines, and excludes float fields
(whose textual rendering is binary-float dependent). -/

def safeIdChar (c : Char) : Bool :=
  c.isAlphanum || c = '/' || c = '-' || c = '_'

def safeId (id : Raw) : Bool := !id.isEmpty && id.all safeIdChar

def safeStrChar (c : Char) : Bool := !(c = '"' || c = '\\' || c = '\n')

def safeVal : JVal → Bool
  | .jInt _ => true
  | .jBool _ => true
  | .jStr s => s.toList.all safeStrChar
  | .jRat _ => false

def safeRecord (r : Record) : Bool :=
  !r.isEmpty && r.all (fun kv => kv.1.toList.all safeStrChar && safeVal kv.2)

/-- A well-formed parsed registry: identifiers are distinct and regex-literal,
records are nonempty and serialization-safe. -/
def SafeReg (es : Registry) : Prop :=
  (es.map Prod.fst).Nodup ∧ ∀ p ∈ es, safeId p.1 = true ∧ safeRecord p.2 = true

/-- Overwrite every entry keyed `id` with `rec`: the parsed-level effect of a
block replacement in the raw text. -/
def setRec (es : Registry) (id : Raw) (rec : Record) : Registry :=
  es.map (fun p => if p.1 = id then (p.1, rec) else p)

/-- Insert `(id, rec)` immediately before every entry keyed `next`: the
parsed-level effect of the insert-before-successor replacement. -/
def insertBeforeKey (es : Registry) (next id : Raw) (rec : Record) : Registry :=
  es.flatMap (fun p => if p.1 = next then [(id, rec), p] else [p])

/-- Parsed-level effect of the insertion/update pass when every remote
identifier exists locally. -/
def remApply (remote : List (Raw × Record)) (es : Registry) : Registry :=
  remote.foldl (fun acc p => setRec acc p.1 p.2) es

/-- The record written by one deprecation step, when the step qualifies
(identifier present locally and without a deprecation date). -/
def depRecFor (localData : Registry) (p : Raw × Record) : Option Record :=
  match lookupReg localData p.1 with
  | none => none
  | some r =>
      if (lookupVal r "deprecation_date").isSome then none
      else some (pyDictUpdate r p.2)

/-- Parsed-level effect of the deprecation pass. -/
def depApply (dep : List (Raw × Record)) (localData : Registry)
    (es : Registry) : Registry :=
  dep.foldl (fun acc p =>
    match depRecFor localData p with
    | none => acc
    | some r => setRec acc p.1 r) es

/-- The per-entry effect of a sequence of constant block writes: each write
`(id, rec)` replaces the record of an entry keyed `id` and leaves other
entries alone.  Both merge passes only perform such writes, with values that
do not depend on the text being rewritten. -/
def pointFun (ops : List (Raw × Record)) (q : Raw × Record) : Raw × Record :=
  ops.foldl (fun q p => if q.1 = p.1 then (q.1, p.2) else q) q

/-- The effective write list of the deprecation pass: one constant write per
qualifying deprecation entry (identifier present locally without a
`deprecation_date`). -/
def depOps (dep : List (Raw × Record)) (localData : Registry) :
    List (Raw × Record) :=
  dep.filterMap (fun p => (depRecFor localData p).map (fun r => (p.1, r)))

/-- No match of the opening pattern `"<id>":\s*\{` begins at any position
inside `X`, whatever text follows `X`.  Since the block pattern starts with
the same opening, this also rules out matches of the block pattern. -/
def CleanO (id : Raw) (X : Raw) : Prop :=
  ∀ a b Y, X = a ++ b → b ≠ [] → tryOpen id (b ++ Y) = none

/-! ## Spec-stated rules, for refinement comparison

These two definitions follow the specification's words (not the code) and are
used only to exhibit where the code differs from the stated rule. -/

/-- The token-count rule as the spec states it: strip thousands-separator
commas, expand a TRAILING lowercase `k` into three zero digits, parse as an
integer when purely numeric, otherwise no value. -/
def tokensSpecRule (text : Raw) : Option Int :=
  let noCommas := text.filter (fun c => c ≠ ',')
  let expanded :=
    if noCommas.getLast? = some 'k' then noCommas.dropLast ++ ['0', '0', '0']
    else noCommas
  if pyIsDigit expanded then some (digitsVal expanded) else none

/-- The token-count rule as amended to match the code: strip every comma,
expand EVERY lowercase `k` into three zero digits, parse as an integer when
the result is purely numeric, otherwise no value. -/
def tokensAmendedRule (text : Raw) : Option Int :=
  let noCommas := text.filter (fun c => c ≠ ',')
  let expanded := noCommas.flatMap (fun c => if c = 'k' then ['0', '0', '0'] else [c])
  if pyIsDigit expanded then some (digitsVal expanded) else none

/-- The price rule as the spec states it: take only the first line, strip the
LEADING `$` and TRAILING `*`, parse the remainder as a decimal number, divide
by the divisor, round to 8 decimal places. -/
def priceSpecRule (price : Raw) (divisor : ℚ) : Option ℚ :=
  let firstLine := price.takeWhile (fun c => c ≠ '\n')
  let noDollar := match firstLine with
    | '$' :: t => t
    | t => t
  let noStar := if noDollar.getLast? = some '*' then noDollar.dropLast else noDollar
  (parseDec noStar).map (fun v => rnd8 (v / divisor))

/-! ## Record-lookup lemmas -/

theorem lookup_map_upd (r : Record) (k : String) (v : JVal) :
    lookupVal (r.map fun kv => if kv.1 = k then (k, v) else kv) k =
      if r.any (fun kv => kv.1 = k) then some v else none := by
  induction r with
  | nil => simp [lookupVal]
  | cons kv t ih =>
      simp only [List.map_cons, List.any_cons]
      by_cases h : kv.1 = k
      · rw [if_pos h]
        simp [lookupVal, h]
      · rw [if_neg h]
        simp only [lookupVal, if_neg h, ih]
        simp only [decide_eq_false h, Bool.false_or]

theorem lookup_map_upd_ne (r : Record) (k : String) (v : JVal) (k' : String)
    (h : k ≠ k') :
    lookupVal (r.map fun kv => if kv.1 = k then (k, v) else kv) k' =
      lookupVal r k' := by
  induction r with
  | nil => simp [lookupVal]
  | cons kv t ih =>
      simp only [List.map_cons]
      by_cases hk : kv.1 = k
      · rw [if_pos hk]
        simp only [lookupVal]
        rw [if_neg h, if_neg (hk ▸ h), ih]
      · rw [if_neg hk]
        simp only [lookupVal]
        by_cases hk' : kv.1 = k'
        · rw [if_pos hk', if_pos hk']
        · rw [if_neg hk', if_neg hk', ih]

theorem lookup_append (r s : Record) (k : String) :
    lookupVal (r ++ s) k = (lookupVal r k).or (lookupVal s k) := by
  induction r with
  | nil => simp [lookupVal]
  | cons kv t ih =>
      by_cases h : kv.1 = k
      · simp [lookupVal, h]
      · simp [lookupVal, h, ih]

theorem lookup_any_isSome (r : Record) (k : String) :
    r.any (fun kv => kv.1 = k) = (lookupVal r k).isSome := by
  induction r with
  | nil => simp [lookupVal]
  | cons kv t ih =>
      by_cases h : kv.1 = k
      · simp [lookupVal, h]
      · simp [lookupVal, h, ih]

theorem lookupVal_updOne_self (r : Record) (k : String) (v : JVal) :
    lookupVal (updOne r k v) k = some v := by
  unfold updOne
  cases h : r.any (fun kv => kv.1 = k) with
  | true => simp only [if_true, lookup_map_upd, h]
  | false =>
      simp only [Bool.false_eq_true, if_false, lookup_append]
      rw [lookup_any_isSome] at h
      rcases h1 : lookupVal r k with _ | v'
      · simp [lookupVal]
      · rw [h1] at h; simp at h

theorem lookupVal_updOne_ne (r : Record) (k : String) (v : JVal) (k' : String)
    (h : k ≠ k') :
    lookupVal (updOne r k v) k' = lookupVal r k' := by
  unfold updOne
  cases ha : r.any (fun kv => kv.1 = k) with
  | true => simp only [if_true, lookup_map_upd_ne _ _ _ _ h]
  | false =>
      simp only [Bool.false_eq_true, if_false, lookup_append]
      rcases h1 : lookupVal r k' with _ | v'
      · simp [lookupVal, h]
      · simp

/-- Keys of a record after `updOne`. -/
theorem lookup_isSome_updOne (r : Record) (k : String) (v : JVal) (k' : String) :
    (lookupVal (updOne r k v) k').isSome =
      ((lookupVal r k').isSome || (k = k')) := by
  by_cases h : k = k'
  · subst h; rw [lookupVal_updOne_self]; simp
  · rw [lookupVal_updOne_ne _ _ _ _ h]; simp [h]

theorem lookupVal_pyDictUpdate (a b : Record) (k : String)
    (hb : (b.map Prod.fst).Nodup) :
    lookupVal (pyDictUpdate a b) k = (lookupVal b k).or (lookupVal a k) := by
  induction b generalizing a with
  | nil => simp [pyDictUpdate, lookupVal]
  | cons kv t ih =>
      simp only [List.map_cons, List.nodup_cons] at hb
      have step : pyDictUpdate a (kv :: t) = pyDictUpdate (updOne a kv.1 kv.2) t := by
        simp [pyDictUpdate]
      rw [step, ih _ hb.2]
      by_cases h : kv.1 = k
      · subst h
        have ht : lookupVal t kv.1 = none := by
          rcases h1 : lookupVal t kv.1 with _ | v'
          · rfl
          · exfalso
            apply hb.1
            clear ih hb step
            induction t with
            | nil => simp [lookupVal] at h1
            | cons kv' t' ih' =>
                simp only [lookupVal] at h1
                split at h1
                · rename_i he; simp [he]
                · simp only [List.map_cons, List.mem_cons]
                  exact Or.inr (ih' h1)
        rw [ht, lookupVal_updOne_self]
        simp [lookupVal]
      · rw [lookupVal_updOne_ne _ _ _ _ h]
        simp only [lookupVal, if_neg h]

/-! ## Claims C2 and C3: cell normalization of "supports" and "tokens" columns -/

/-- C2 (counterexample): the claim says a "supports" cell succeeds only when
the lower-cased, trimmed text is exactly "yes" or "no", raising otherwise.
The code only checks substring containment: the cell text "Yess" (trimmed,
lowered: "yess") is neither "yes" nor "no", yet extraction succeeds and
yields `false`. -/
theorem claim_C2_counterexample :
    normalizeCell "supports_function_calling" "Yess".toList =
      .ok (some (.jBool false)) ∧
    pyStrip (pyLower "Yess".toList) ≠ "yes".toList ∧
    pyStrip (pyLower "Yess".toList) ≠ "no".toList := by
  refine ⟨by rfl, by decide, by decide⟩

/-- C2 (amended): for a column whose output field name contains "supports"
(and not "cost", which is dispatched first), the code raises exactly when the
lower-cased, trimmed cell text contains neither "yes" nor "no" as a substring;
otherwise it succeeds and stores `true` precisely when the text is exactly
"yes" (so "yes" ↦ true, "no" ↦ false, "maybe" ↦ fatal error, but e.g.
"yess" ↦ false rather than an error). -/
theorem claim_C2_amended (colName : String) (text : Raw)
    (hsup : isSub "supports".toList colName.toList = true)
    (hcost : isSub "cost".toList colName.toList = false) :
    normalizeCell colName text =
      (if isSub "yes".toList (pyStrip (pyLower text))
          || isSub "no".toList (pyStrip (pyLower text)) then
        .ok (some (.jBool (pyStrip (pyLower text) = "yes".toList)))
      else .error "ValueError: invalid supports value") := by
  unfold normalizeCell
  simp only [hcost, hsup, Bool.false_eq_true, if_false, if_true]
  cases hy : isSub "yes".toList (pyStrip (pyLower text)) <;>
    cases hn : isSub "no".toList (pyStrip (pyLower text)) <;>
      simp [hy, hn]

/-- C2 (witness): the amended theorem applied to the "Maybe" cell of a
supports column, which is a fatal error. -/
theorem claim_C2_witness :
    (isSub "supports".toList "supports_tool_choice".toList = true ∧
     isSub "cost".toList "supports_tool_choice".toList = false) ∧
    normalizeCell "supports_tool_choice" "Maybe".toList =
      (if isSub "yes".toList (pyStrip (pyLower "Maybe".toList))
          || isSub "no".toList (pyStrip (pyLower "Maybe".toList)) then
        .ok (some (.jBool (pyStrip (pyLower "Maybe".toList) = "yes".toList)))
      else .error "ValueError: invalid supports value") :=
  ⟨⟨by decide, by decide⟩,
   claim_C2_amended "supports_tool_choice" "Maybe".toList (by decide) (by decide)⟩

/-- C3 (counterexample): the claim says only a TRAILING lowercase "k" is
expanded to three zeros and any other non-numeric text is omitted.  The code
replaces EVERY "k": on the cell "1k1" the spec-stated rule yields no value,
but the code stores 10001. -/
theorem claim_C3_counterexample :
    normalizeCell "max_tokens" "1k1".toList = .ok (some (.jInt 10001)) ∧
    tokensSpecRule (pyStrip (pyLower "1k1".toList)) = none := by
  refine ⟨by rfl, by decide⟩

/-- C3 (amended): for a column whose output field name contains "tokens" (and
neither "cost" nor "supports", which are dispatched first), the code strips
every comma, expands EVERY lowercase "k" into three zero digits, stores the
integer value when the transformed text is purely numeric, and otherwise
silently omits the field; no error is ever raised.  ("128k" ↦ 128000 and
"4,096" ↦ 4096 as the claim's examples state.) -/
theorem claim_C3_amended (colName : String) (text : Raw)
    (htok : isSub "tokens".toList colName.toList = true)
    (hcost : isSub "cost".toList colName.toList = false)
    (hsup : isSub "supports".toList colName.toList = false) :
    normalizeCell colName text =
      .ok ((tokensAmendedRule (pyStrip (pyLower text))).map (fun n => JVal.jInt n)) := by
  unfold normalizeCell tokensAmendedRule
  simp only [hcost, hsup, htok, Bool.false_eq_true, if_false, if_true]
  cases hd : pyIsDigit (((pyStrip (pyLower text)).filter (fun c => c ≠ ',')).flatMap
      (fun c => if c = 'k' then ['0', '0', '0'] else [c])) <;>
    simp [hd]

/-- C3 (witness): the amended theorem applied to the cells "128k" (stored as
128000) and "n/a" (silently omitted). -/
theorem claim_C3_witness :
    (isSub "tokens".toList "max_tokens".toList = true ∧
     isSub "cost".toList "max_tokens".toList = false ∧
     isSub "supports".toList "max_tokens".toList = false) ∧
    normalizeCell "max_tokens" "128k".toList =
      .ok ((tokensAmendedRule (pyStrip (pyLower "128k".toList))).map
        (fun n => JVal.jInt n)) ∧
    normalizeCell "max_tokens" "n/a".toList =
      .ok ((tokensAmendedRule (pyStrip (pyLower "n/a".toList))).map
        (fun n => JVal.jInt n)) ∧
    tokensAmendedRule (pyStrip (pyLower "128k".toList)) = some 128000 ∧
    tokensAmendedRule (pyStrip (pyLower "n/a".toList)) = none :=
  ⟨⟨by decide, by decide, by decide⟩,
   claim_C3_amended "max_tokens" "128k".toList (by decide) (by decide) (by decide),
   claim_C3_amended "max_tokens" "n/a".toList (by decide) (by decide) (by decide),
   by decide, by decide⟩

/-! ## Claim C8: date conversion -/

theorem splitOn_slash_three (a b c : Raw) (ha : '/' ∉ a) (hb : '/' ∉ b)
    (hc : '/' ∉ c) :
    (a ++ '/' :: (b ++ '/' :: c)).splitOn '/' = [a, b, c] := by
  have hno : ∀ (l : Raw), '/' ∉ l → ∀ x ∈ l, ¬((x == '/') = true) := by
    intro l hl x hx hbeq
    exact hl (beq_iff_eq.mp hbeq ▸ hx)
  unfold List.splitOn
  rw [List.splitOnP_first _ _ (hno a ha) '/' (by simp),
    List.splitOnP_first _ _ (hno b hb) '/' (by simp),
    List.splitOnP_eq_single _ _ (hno c hc)]

/-- C8: `_convert_date` on any input of the form `MM/DD/YY` (three `/`-free
parts) returns `20YY-MM-DD` — the 21st-century assumption. -/
theorem claim_C8 (mm dd yy : Raw) (h1 : '/' ∉ mm) (h2 : '/' ∉ dd)
    (h3 : '/' ∉ yy) :
    convertDate (mm ++ '/' :: (dd ++ '/' :: yy)) =
      some ('2' :: '0' :: yy ++ '-' :: mm ++ '-' :: dd) := by
  unfold convertDate
  rw [splitOn_slash_three mm dd yy h1 h2 h3]

/-- C8 (witness): "01/15/24" converts to "2024-01-15" and the boundary case
"12/31/99" to "2099-12-31". -/
theorem claim_C8_witness :
    (('/' ∉ "01".toList ∧ '/' ∉ "15".toList ∧ '/' ∉ "24".toList) ∧
      ("01".toList ++ '/' :: ("15".toList ++ '/' :: "24".toList)) = "01/15/24".toList ∧
      ('2' :: '0' :: "24".toList ++ '-' :: "01".toList ++ '-' :: "15".toList) =
        "2024-01-15".toList) ∧
    convertDate ("01".toList ++ '/' :: ("15".toList ++ '/' :: "24".toList)) =
      some ('2' :: '0' :: "24".toList ++ '-' :: "01".toList ++ '-' :: "15".toList) ∧
    convertDate ("12".toList ++ '/' :: ("31".toList ++ '/' :: "99".toList)) =
      some ('2' :: '0' :: "99".toList ++ '-' :: "12".toList ++ '-' :: "31".toList) :=
  ⟨⟨⟨by decide, by decide, by decide⟩, by decide, by decide⟩,
   claim_C8 "01".toList "15".toList "24".toList (by decide) (by decide) (by decide),
   claim_C8 "12".toList "31".toList "99".toList (by decide) (by decide) (by decide)⟩

/-! ## Claim C9: price conversion -/

theorem takeWhile_append_all {p : Char → Bool} {l l' : Raw}
    (h : ∀ c ∈ l, p c = true) :
    (l ++ l').takeWhile p = l ++ l'.takeWhile p := by
  induction l with
  | nil => simp
  | cons c t ih =>
      simp only [List.cons_append, List.takeWhile_cons]
      rw [h c (by simp), ih (fun c hc => h c (by simp [hc]))]
      simp

theorem dropWhile_eq_self_all {p : Char → Bool} {l : Raw}
    (h : ∀ c ∈ l, p c = false) :
    l.dropWhile p = l := by
  cases l with
  | nil => rfl
  | cons c t => simp [List.dropWhile_cons, h c (by simp)]

theorem pyStrip_eq_self {l : Raw} (h : ∀ c ∈ l, isPySpace c = false) :
    pyStrip l = l := by
  unfold pyStrip
  rw [dropWhile_eq_self_all h,
    dropWhile_eq_self_all (fun c hc => h c (List.mem_reverse.mp hc)),
    List.reverse_reverse]

theorem parseDecCore_chars {s : Raw} {v : ℚ} (h : parseDecCore s = some v) :
    ∀ c ∈ s, c.isDigit = true ∨ c = '.' := by
  intro c hc
  unfold parseDecCore at h
  rw [← List.takeWhile_append_dropWhile (p := Char.isDigit) (l := s)] at hc
  rcases List.mem_append.mp hc with hm | hm
  · exact Or.inl (List.mem_takeWhile_imp hm)
  · rcases hr : s.dropWhile Char.isDigit with _ | ⟨c0, t⟩
    · rw [hr] at hm; simp at hm
    · rw [hr] at hm h
      simp only [] at h
      split at h
      · rename_i hcond
        rcases (Bool.and_eq_true _ _).mp hcond with ⟨h1, _⟩
        rcases (Bool.and_eq_true _ _).mp h1 with ⟨hdot, hall⟩
        rcases List.mem_cons.mp hm with hm1 | hm1
        · exact Or.inr (hm1.trans (by simpa using hdot))
        · exact Or.inl (List.all_eq_true.mp hall c hm1)
      · exact absurd h (by simp)

theorem parseDec_chars {s : Raw} {v : ℚ} (h : parseDec s = some v) :
    ∀ c ∈ s, c.isDigit = true ∨ c = '.' ∨ c = '-' ∨ c = '+' := by
  intro c hc
  cases s with
  | nil => exact absurd hc (by simp)
  | cons c0 t =>
      simp only [parseDec] at h
      by_cases h0 : c0 = '-'
      · rw [if_pos h0] at h
        rcases List.mem_cons.mp hc with hm | hm
        · exact Or.inr (Or.inr (Or.inl (hm.trans h0)))
        · rcases Option.map_eq_some'.mp h with ⟨v', hv', _⟩
          rcases parseDecCore_chars hv' c hm with h1 | h1
          · exact Or.inl h1
          · exact Or.inr (Or.inl h1)
      · rw [if_neg h0] at h
        by_cases h1 : c0 = '+'
        · rw [if_pos h1] at h
          rcases List.mem_cons.mp hc with hm | hm
          · exact Or.inr (Or.inr (Or.inr (hm.trans h1)))
          · rcases parseDecCore_chars h c hm with h2 | h2
            · exact Or.inl h2
            · exact Or.inr (Or.inl h2)
        · rw [if_neg h1] at h
          rcases parseDecCore_chars h c hc with h2 | h2
          · exact Or.inl h2
          · exact Or.inr (Or.inl h2)

theorem isDigit_isPySpace {c : Char} (h : c.isDigit = true) :
    isPySpace c = false := by
  by_contra hs
  rw [Bool.not_eq_false] at hs
  simp only [isPySpace, Bool.or_eq_true, decide_eq_true_eq] at hs
  rcases hs with ((((rfl | rfl) | rfl) | rfl) | rfl) | rfl <;>
    exact absurd h (by decide)

theorem rnd8_close (q : ℚ) : |rnd8 q - q| ≤ 1 / 200000000 := by
  unfold rnd8
  have habs := abs_sub_round (α := ℚ) (q * 100000000)
  rw [abs_sub_comm] at habs
  have heq : ((round (q * 100000000) : ℤ) : ℚ) / 100000000 - q =
      (((round (q * 100000000) : ℤ) : ℚ) - q * 100000000) / 100000000 := by
    conv_lhs => rw [show q = q * 100000000 / 100000000 from by field_simp]
    rw [div_sub_div_same]
    ring_nf
  rw [heq, abs_div, show |(100000000 : ℚ)| = 100000000 from by norm_num]
  calc |((round (q * 100000000) : ℤ) : ℚ) - q * 100000000| / 100000000
      ≤ (1 / 2) / 100000000 := by gcongr
    _ = 1 / 200000000 := by norm_num

/-- C9 (counterexample): the claim says `_convert_price` strips the LEADING
`$` and TRAILING `*` and parses the remainder, so on the cell "$1$" the
remainder "1$" is not a decimal number and conversion fails.  The code removes
every `$`, parses "1" and returns `1e-6`. -/
theorem claim_C9_counterexample :
    convertPrice "$1$".toList 1000000 = some ((1 : ℚ) / 1000000) ∧
    priceSpecRule "$1$".toList 1000000 = none := by
  constructor
  · show (parseDec (pyStrip ((("$1$".toList.takeWhile (fun c => c ≠ '\n')).filter
        (fun c => c ≠ '$')).filter (fun c => c ≠ '*')))).map
          (fun v => rnd8 (v / 1000000)) = some ((1 : ℚ) / 1000000)
    have hclean : pyStrip ((("$1$".toList.takeWhile (fun c => c ≠ '\n')).filter
        (fun c => c ≠ '$')).filter (fun c => c ≠ '*')) = ['1'] := by decide
    rw [hclean]
    have hp : parseDec ['1'] = some 1 := by simp [parseDec, parseDecCore, digitsVal]
    rw [hp]
    simp only [Option.map_some']
    congr 1
    unfold rnd8
    have h : (1 : ℚ) / 1000000 * 100000000 = 100 := by norm_num
    rw [h]
    norm_num [round_eq]
  · decide

/-- C9 (amended): on a price cell of the exhibited form `$<numeral>*\n<rest>`,
`_convert_price` removes every `$` and `*` from the first line (on this form,
the same as stripping the leading `$` and trailing `*`), parses the decimal
numeral, divides by the caller-supplied divisor and rounds to 8 decimal
places; multiplying the result back by the divisor reproduces the original
number up to half a unit in the 8th decimal place scaled by the divisor. -/
theorem claim_C9_amended (num rest : Raw) (d v : ℚ)
    (hv : parseDec num = some v) (hd : 0 < d) :
    convertPrice ('$' :: num ++ '*' :: '\n' :: rest) d = some (rnd8 (v / d)) ∧
    |rnd8 (v / d) * d - v| ≤ d / 200000000 := by
  have hchar := parseDec_chars hv
  have hsafe : ∀ (x : Char), x = '\n' ∨ x = '$' ∨ x = '*' →
      ∀ c ∈ num, (decide (c ≠ x)) = true := by
    rintro x hx c hc
    rcases hchar c hc with h | rfl | rfl | rfl
    · simp only [decide_eq_true_eq]
      rintro rfl
      rcases hx with rfl | rfl | rfl <;> exact absurd h (by decide)
    all_goals rcases hx with rfl | rfl | rfl <;> decide
  constructor
  · show (parseDec (pyStrip (((('$' :: num ++ '*' :: '\n' :: rest).takeWhile
        (fun c => c ≠ '\n')).filter (fun c => c ≠ '$')).filter
          (fun c => c ≠ '*')))).map (fun v => rnd8 (v / d)) = some (rnd8 (v / d))
    have step1 : ('$' :: num ++ '*' :: '\n' :: rest).takeWhile
        (fun c => (decide (c ≠ '\n'))) = ('$' :: num) ++ ['*'] := by
      have hall : ∀ c ∈ '$' :: num, (decide (c ≠ '\n')) = true := by
        intro c hc
        rcases List.mem_cons.mp hc with rfl | hc
        · decide
        · exact hsafe '\n' (Or.inl rfl) c hc
      have hsplit : '$' :: num ++ '*' :: '\n' :: rest =
          ('$' :: num) ++ ('*' :: '\n' :: rest) := by simp
      rw [hsplit, takeWhile_append_all hall]
      simp
    rw [step1]
    have step2 : (('$' :: num) ++ ['*']).filter (fun c => (decide (c ≠ '$'))) =
        num ++ ['*'] := by
      rw [List.filter_append, List.filter_cons,
        List.filter_eq_self.mpr (hsafe '$' (Or.inr (Or.inl rfl)))]
      simp
    rw [step2]
    have step3 : (num ++ ['*']).filter (fun c => (decide (c ≠ '*'))) = num := by
      rw [List.filter_append,
        List.filter_eq_self.mpr (hsafe '*' (Or.inr (Or.inr rfl)))]
      simp
    rw [step3]
    have step4 : pyStrip num = num := by
      apply pyStrip_eq_self
      intro c hc
      rcases hchar c hc with h | rfl | rfl | rfl
      · exact isDigit_isPySpace h
      all_goals decide
    rw [step4, hv]
    rfl
  · have key := rnd8_close (v / d)
    have hvd : v / d * d = v := div_mul_cancel₀ v (ne_of_gt hd)
    calc |rnd8 (v / d) * d - v| = |(rnd8 (v / d) - v / d) * d| := by
          rw [sub_mul, hvd]
      _ = |rnd8 (v / d) - v / d| * d := by
          rw [abs_mul, abs_of_pos hd]
      _ ≤ (1 / 200000000) * d := mul_le_mul_of_nonneg_right key (le_of_lt hd)
      _ = d / 200000000 := by ring

theorem parseDec_ten : parseDec "10.00".toList = some 10 := by
  show parseDec ['1', '0', '.', '0', '0'] = some 10
  simp only [parseDec]
  rw [if_neg (by decide), if_neg (by decide)]
  unfold parseDecCore
  rw [show List.dropWhile Char.isDigit ['1', '0', '.', '0', '0'] = ['.', '0', '0']
      from by decide]
  simp only []
  rw [if_pos (by decide)]
  rw [show List.takeWhile Char.isDigit ['1', '0', '.', '0', '0'] = ['1', '0']
      from by decide]
  rw [show digitsVal ['1', '0'] = 10 from by decide,
    show digitsVal ['0', '0'] = 0 from by decide]
  norm_num

/-- C9 (witness): the amended theorem applied to the cell
`"$10.00*\nper 1M tokens"` with the per-token divisor 1,000,000. -/
theorem claim_C9_witness :
    (parseDec "10.00".toList = some 10 ∧ (0 : ℚ) < 1000000) ∧
    (convertPrice ('$' :: "10.00".toList ++ '*' :: '\n' :: "per 1M tokens".toList)
        1000000 = some (rnd8 ((10 : ℚ) / 1000000)) ∧
      |rnd8 ((10 : ℚ) / 1000000) * 1000000 - 10| ≤ 1000000 / 200000000) :=
  ⟨⟨parseDec_ten, by norm_num⟩,
   claim_C9_amended "10.00".toList "per 1M tokens".toList 1000000 10
     parseDec_ten (by norm_num)⟩

/-! ## Claim C6: aggregation union order -/

/-- C6: the aggregator builds each model's record as the field-union of the
per-category records in the order pricing, capabilities, context window,
reasoning, with the later category winning on any key collision (hypotheses:
each scraped record is a dict, i.e. has no duplicate keys). -/
theorem claim_C6 (pricing capabilities contextWindow reasoning : ScrMap)
    (name key : String)
    (hc : ((getRecD capabilities name).map Prod.fst).Nodup)
    (hw : ((getRecD contextWindow name).map Prod.fst).Nodup)
    (hr : ((getRecD reasoning name).map Prod.fst).Nodup) :
    lookupVal (aggBase pricing capabilities contextWindow reasoning name) key =
      ((lookupVal (getRecD reasoning name) key).or
        ((lookupVal (getRecD contextWindow name) key).or
          ((lookupVal (getRecD capabilities name) key).or
            (lookupVal (getRecD pricing name) key)))) := by
  unfold aggBase
  rw [lookupVal_pyDictUpdate _ _ _ hr, lookupVal_pyDictUpdate _ _ _ hw,
    lookupVal_pyDictUpdate _ _ _ hc]

/-- C6 (witness): a key present in both pricing and capabilities takes the
capabilities (later) value. -/
theorem claim_C6_witness :
    (((getRecD [("m", [("shared", JVal.jInt 2)])] "m").map Prod.fst).Nodup ∧
     ((getRecD ([] : ScrMap) "m").map Prod.fst).Nodup) ∧
    lookupVal (aggBase [("m", [("input_cost_per_token", JVal.jInt 1),
        ("shared", JVal.jInt 1)])] [("m", [("shared", JVal.jInt 2)])]
        ([] : ScrMap) ([] : ScrMap) "m") "shared" =
      ((lookupVal (getRecD ([] : ScrMap) "m") "shared").or
        ((lookupVal (getRecD ([] : ScrMap) "m") "shared").or
          ((lookupVal (getRecD [("m", [("shared", JVal.jInt 2)])] "m") "shared").or
            (lookupVal (getRecD [("m", [("input_cost_per_token", JVal.jInt 1),
              ("shared", JVal.jInt 1)])] "m") "shared")))) ∧
    (lookupVal (getRecD [("m", [("shared", JVal.jInt 2)])] "m") "shared").or
        ((lookupVal (getRecD [("m", [("input_cost_per_token", JVal.jInt 1),
          ("shared", JVal.jInt 1)])] "m") "shared")) = some (JVal.jInt 2) :=
  ⟨⟨by decide, by decide⟩,
   claim_C6 [("m", [("input_cost_per_token", JVal.jInt 1), ("shared", JVal.jInt 1)])]
     [("m", [("shared", JVal.jInt 2)])] [] [] "m" "shared"
     (by decide) (by decide) (by decide),
   by decide⟩

/-! ## Claim C7: context-window post-processing -/

/-- C7: for a record with `max_input_tokens`, a missing or placeholder ("-")
`max_output_tokens` is set to the `max_input_tokens` value, and afterwards a
missing or placeholder `max_tokens` is set to the possibly-just-defaulted
`max_output_tokens`; a record without `max_input_tokens` is unchanged. -/
theorem claim_C7 (rec : Record) :
    (lookupVal rec "max_input_tokens" = none → ctxPostProcess rec = rec) ∧
    (∀ vin, lookupVal rec "max_input_tokens" = some vin →
      lookupVal (ctxPostProcess rec) "max_output_tokens" =
        (if needsDefault (lookupVal rec "max_output_tokens") then some vin
         else lookupVal rec "max_output_tokens") ∧
      lookupVal (ctxPostProcess rec) "max_tokens" =
        (if needsDefault (lookupVal rec "max_tokens") then
          (if needsDefault (lookupVal rec "max_output_tokens") then some vin
           else lookupVal rec "max_output_tokens")
         else lookupVal rec "max_tokens")) := by
  constructor
  · intro h
    unfold ctxPostProcess
    rw [h]
  · intro vin h
    unfold ctxPostProcess
    rw [h]
    simp only []
    have hmm : ("max_output_tokens" : String) ≠ "max_tokens" := by decide
    have hmi : ("max_tokens" : String) ≠ "max_output_tokens" := by decide
    cases hd1 : needsDefault (lookupVal rec "max_output_tokens") with
    | true =>
        simp only [if_true]
        have e1 : lookupVal (updOne rec "max_output_tokens" vin)
            "max_output_tokens" = some vin := lookupVal_updOne_self _ _ _
        have e2 : lookupVal (updOne rec "max_output_tokens" vin) "max_tokens" =
            lookupVal rec "max_tokens" := lookupVal_updOne_ne _ _ _ _ hmm
        cases hd2 : needsDefault (lookupVal rec "max_tokens") with
        | true =>
            rw [e2, hd2]
            simp only [if_true, e1]
            constructor
            · rw [lookupVal_updOne_ne _ _ _ _ hmi, e1]
            · rw [lookupVal_updOne_self]
        | false =>
            rw [e2, hd2]
            simp only [Bool.false_eq_true, if_false]
            exact ⟨e1, e2⟩
    | false =>
        simp only [Bool.false_eq_true, if_false]
        rcases ho : lookupVal rec "max_output_tokens" with _ | vout
        · rw [ho] at hd1
          exact absurd hd1 (by simp [needsDefault])
        · cases hd2 : needsDefault (lookupVal rec "max_tokens") with
          | true =>
              refine ⟨?_, ?_⟩
              · show lookupVal (updOne rec "max_tokens" vout)
                  "max_output_tokens" = some vout
                rw [lookupVal_updOne_ne _ _ _ _ hmi]
                exact ho
              · show lookupVal (updOne rec "max_tokens" vout)
                  "max_tokens" = some vout
                rw [lookupVal_updOne_self]
          | false =>
              refine ⟨?_, ?_⟩
              · show lookupVal rec "max_output_tokens" = some vout
                exact ho
              · show lookupVal rec "max_tokens" = lookupVal rec "max_tokens"
                rfl

/-- C7 (witness): a context-window record with only `max_input_tokens` gets
both `max_output_tokens` and `max_tokens` defaulted to it. -/
theorem claim_C7_witness :
    lookupVal [("max_input_tokens", JVal.jInt 131072)] "max_input_tokens" =
      some (JVal.jInt 131072) ∧
    lookupVal (ctxPostProcess [("max_input_tokens", JVal.jInt 131072)])
        "max_output_tokens" =
      (if needsDefault (lookupVal [("max_input_tokens", JVal.jInt 131072)]
          "max_output_tokens") then some (JVal.jInt 131072)
       else lookupVal [("max_input_tokens", JVal.jInt 131072)] "max_output_tokens") ∧
    lookupVal (ctxPostProcess [("max_input_tokens", JVal.jInt 131072)])
        "max_tokens" =
      (if needsDefault (lookupVal [("max_input_tokens", JVal.jInt 131072)]
          "max_tokens") then
        (if needsDefault (lookupVal [("max_input_tokens", JVal.jInt 131072)]
            "max_output_tokens") then some (JVal.jInt 131072)
         else lookupVal [("max_input_tokens", JVal.jInt 131072)] "max_output_tokens")
       else lookupVal [("max_input_tokens", JVal.jInt 131072)] "max_tokens") :=
  ⟨by decide,
   (claim_C7 [("max_input_tokens", JVal.jInt 131072)]).2 (JVal.jInt 131072) (by decide)⟩

/-! ## Claim C10: audio-transcription records get a zero output cost -/

theorem lookup_proj_not_mem (ks : List String) (r2 : Record) (key : String)
    (h : key ∉ ks) :
    lookupVal (ks.filterMap fun k => (lookupVal r2 k).map (fun v => (k, v)))
      key = none := by
  induction ks with
  | nil => rfl
  | cons k0 t ih =>
      rw [List.filterMap_cons]
      have hk0 : k0 ≠ key := fun he => h (he ▸ List.mem_cons_self k0 t)
      have ht : key ∉ t := fun hm => h (List.mem_cons_of_mem _ hm)
      cases hl : lookupVal r2 k0 with
      | none => simpa using ih ht
      | some v =>
          simp only [Option.map_some', lookupVal]
          rw [if_neg hk0]
          exact ih ht

theorem lookup_proj_mem (ks : List String) (r2 : Record) (key : String)
    (h : key ∈ ks) (hnd : ks.Nodup) :
    lookupVal (ks.filterMap fun k => (lookupVal r2 k).map (fun v => (k, v)))
      key = lookupVal r2 key := by
  induction ks with
  | nil => cases h
  | cons k0 t ih =>
      rw [List.filterMap_cons]
      rcases List.nodup_cons.mp hnd with ⟨hk0, hnd'⟩
      rcases List.mem_cons.mp h with rfl | hmem
      · cases hl : lookupVal r2 key with
        | none =>
            simp only [hl, Option.map_none']
            exact lookup_proj_not_mem t r2 key hk0
        | some v =>
            simp only [hl, Option.map_some', lookupVal, if_true]
      · have hne : k0 ≠ key := fun he => hk0 (he ▸ hmem)
        cases hl : lookupVal r2 k0 with
        | none =>
            simpa using ih hmem hnd'
        | some v =>
            simp only [Option.map_some', lookupVal]
            rw [if_neg hne]
            exact ih hmem hnd'

/-- C10: an aggregated record lacking `input_cost_per_token` but carrying
`input_cost_per_second` is classified as `audio_transcription`, and the final
projected record additionally carries `output_cost_per_second = 0.0`, a field
no scraper produced. -/
theorem claim_C10 (pricing capabilities contextWindow reasoning : ScrMap)
    (n : String)
    (h1 : lookupVal (aggBase pricing capabilities contextWindow reasoning n)
        "input_cost_per_token" = none)
    (h2 : (lookupVal (aggBase pricing capabilities contextWindow reasoning n)
        "input_cost_per_second").isSome = true) :
    ∃ out, classifyAndProject ("groq/" ++ n)
        (aggBase pricing capabilities contextWindow reasoning n) = some out ∧
      lookupVal out "output_cost_per_second" = some (.jRat 0) ∧
      lookupVal out "mode" = some (.jStr "audio_transcription") := by
  unfold classifyAndProject
  rw [h1, h2]
  simp only [Option.isSome_none, Bool.false_eq_true, if_false, if_true,
    Option.map_some']
  refine ⟨_, rfl, ?_, ?_⟩
  · rw [lookup_proj_mem _ _ _ (by decide) (by decide)]
    rw [lookupVal_updOne_ne _ _ _ _ (by decide),
      lookupVal_updOne_ne _ _ _ _ (by decide), lookupVal_updOne_self]
  · rw [lookup_proj_mem _ _ _ (by decide) (by decide)]
    rw [lookupVal_updOne_ne _ _ _ _ (by decide), lookupVal_updOne_self]

/-- C10 (witness): a record scraped with only `input_cost_per_second` (an ASR
model) ends with `output_cost_per_second = 0.0` and mode
`audio_transcription`. -/
theorem claim_C10_witness :
    (lookupVal (aggBase [("whisper-large", [("input_cost_per_second", JVal.jInt 1)])]
        [] [] [] "whisper-large") "input_cost_per_token" = none ∧
     (lookupVal (aggBase [("whisper-large", [("input_cost_per_second", JVal.jInt 1)])]
        [] [] [] "whisper-large") "input_cost_per_second").isSome = true) ∧
    (∃ out, classifyAndProject ("groq/" ++ "whisper-large")
        (aggBase [("whisper-large", [("input_cost_per_second", JVal.jInt 1)])]
          [] [] [] "whisper-large") = some out ∧
      lookupVal out "output_cost_per_second" = some (.jRat 0) ∧
      lookupVal out "mode" = some (.jStr "audio_transcription")) :=
  ⟨⟨by decide, by decide⟩,
   claim_C10 [("whisper-large", [("input_cost_per_second", JVal.jInt 1)])]
     [] [] [] "whisper-large" (by decide) (by decide)⟩

/-! ## Shape of serialized blocks -/

theorem entryLinesOf_ne_nil (kv : String × JVal) (t : Record) :
    entryLinesOf (kv :: t) ≠ [] := by
  rcases t with _ | ⟨kv2, t2⟩ <;> simp [entryLinesOf]

theorem reindentMid_lines (r : Record) (hr : r ≠ []) :
    reindentMid (entryLinesOf r ++ [['\x7d']]) = linesText r ++ sp4 ++ ['\x7d'] := by
  induction r with
  | nil => cases hr rfl
  | cons kv t ih =>
      rcases t with _ | ⟨kv2, t2⟩
      · simp only [entryLinesOf, List.cons_append, List.nil_append, reindentMid,
          linesText, lineText]
        simp
      · simp only [entryLinesOf, linesText, List.cons_append]
        have hstep : reindentMid (entryLine kv.1 kv.2 false ::
            (entryLinesOf (kv2 :: t2) ++ [['\x7d']])) =
            sp4 ++ entryLine kv.1 kv.2 false ++
              '\n' :: reindentMid (entryLinesOf (kv2 :: t2) ++ [['\x7d']]) := by
          rcases hsh : entryLinesOf (kv2 :: t2) ++ [['\x7d']] with _ | ⟨l1, ls⟩
          · exact absurd hsh (by simp)
          · rfl
        rw [hstep, ih (by simp)]
        simp [lineText]

theorem serializeBlock_shape (r : Record) (h : r ≠ []) :
    serializeBlock r = '\x7b' :: '\n' :: (linesText r ++ sp4 ++ ['\x7d']) := by
  unfold serializeBlock dumpLines
  match r, h with
  | kv :: t, _ =>
      simp only []
      have hstep : reindentLoop (['\x7b'] :: (entryLinesOf (kv :: t) ++ [['\x7d']])) =
          ['\x7b'] ++ '\n' :: reindentMid (entryLinesOf (kv :: t) ++ [['\x7d']]) := by
        rcases hsh : entryLinesOf (kv :: t) ++ [['\x7d']] with _ | ⟨l1, ls⟩
        · exact absurd hsh (by simp [entryLinesOf_ne_nil])
        · rfl
      simp only [List.cons_append]
      rw [hstep, reindentMid_lines (kv :: t) (by simp)]
      simp

theorem canonEntry_shape (p : Raw × Record) (h : p.2 ≠ []) :
    canonEntry p = sp4 ++ '"' :: p.1 ++ '"' :: ':' :: ' ' ::
      ('\x7b' :: '\n' :: (linesText p.2 ++ sp4 ++ ['\x7d'])) ++ [',', '\n'] := by
  unfold canonEntry
  rw [serializeBlock_shape p.2 h]

/-! ## Character-class facts -/

theorem safeIdChar_ne {c x : Char} (hc : safeIdChar c = true)
    (hx : safeIdChar x = false) : c ≠ x := by
  rintro rfl
  rw [hc] at hx
  cases hx

theorem safeId_head_facts {id : Raw} (h : safeId id = true) :
    ∃ c cs, id = c :: cs ∧ safeIdChar c = true := by
  rcases id with _ | ⟨c, cs⟩
  · simp [safeId] at h
  · rcases Bool.and_eq_true _ _ |>.mp h with ⟨-, hall⟩
    exact ⟨c, cs, rfl, by
      have := List.all_eq_true.mp hall c (by simp)
      simpa using this⟩

theorem safeId_all {id : Raw} (h : safeId id = true) :
    ∀ c ∈ id, safeIdChar c = true := by
  rcases Bool.and_eq_true _ _ |>.mp h with ⟨-, hall⟩
  intro c hc
  simpa using List.all_eq_true.mp hall c hc

theorem safeId_no_quote {id : Raw} (h : safeId id = true) :
    ∀ c ∈ id, c ≠ '"' :=
  fun c hc => safeIdChar_ne (safeId_all h c hc) (by decide)

theorem safeStr_no_quote {s : String} (h : s.toList.all safeStrChar = true) :
    ∀ c ∈ s.toList, c ≠ '"' := by
  intro c hc
  have h1 := List.all_eq_true.mp h c hc
  rintro rfl
  exact absurd h1 (by decide)

/-! ## stripPfx and quote-alignment lemmas -/

theorem stripPfx_append (p s : Raw) : stripPfx p (p ++ s) = some s := by
  induction p with
  | nil => rfl
  | cons c t ih => simp [stripPfx, ih]

theorem stripPfx_head_ne {c d : Char} (h : c ≠ d) (p s : Raw) :
    stripPfx (c :: p) (d :: s) = none := by
  simp [stripPfx, h]

theorem stripPfx_nil_ne (c : Char) (p : Raw) :
    stripPfx (c :: p) [] = none := rfl

/-- Quote alignment: a pattern `id ++ '"' :: P` can only strip from
`k ++ '"' :: A` (with `id` and `k` quote-free) by aligning the quotes, forcing
`id = k`. -/
theorem stripPfx_quoted {id k : Raw} (hid : ∀ c ∈ id, c ≠ '"')
    (hk : ∀ c ∈ k, c ≠ '"') (P A R : Raw)
    (h : stripPfx (id ++ '"' :: P) (k ++ '"' :: A) = some R) :
    id = k ∧ stripPfx P A = some R := by
  induction id generalizing k with
  | nil =>
      rcases k with _ | ⟨d, k'⟩
      · simp only [List.nil_append] at h
        have : stripPfx P A = some R := by simpa [stripPfx] using h
        exact ⟨rfl, this⟩
      · simp only [List.nil_append, List.cons_append] at h
        rw [stripPfx_head_ne (fun he => hk d (by simp) he.symm)] at h
        cases h
  | cons c id' ih =>
      rcases k with _ | ⟨d, k'⟩
      · simp only [List.cons_append, List.nil_append] at h
        rw [stripPfx_head_ne (hid c (by simp))] at h
        cases h
      · simp only [List.cons_append] at h
        by_cases hcd : c = d
        · subst hcd
          have h' : stripPfx (id' ++ '"' :: P) (k' ++ '"' :: A) = some R := by
            simpa [stripPfx] using h
          rcases ih (fun x hx => hid x (by simp [hx]))
            (fun x hx => hk x (by simp [hx])) h' with ⟨he, hs⟩
          exact ⟨by rw [he], hs⟩
        · rw [stripPfx_head_ne hcd] at h
          cases h

/-- A split of `pre ++ post` at a quote must land in `post` when `pre` is
quote-free. -/
theorem quote_split {pre post a b : Raw} (hpre : ∀ c ∈ pre, c ≠ '"')
    (h : pre ++ post = a ++ '"' :: b) :
    ∃ a', a = pre ++ a' ∧ post = a' ++ '"' :: b := by
  induction pre generalizing a with
  | nil => exact ⟨a, by simp, by simpa using h⟩
  | cons c t ih =>
      rcases a with _ | ⟨a0, a'⟩
      · simp only [List.cons_append, List.nil_append] at h
        rw [List.cons.injEq] at h
        exact absurd h.1 (hpre c (by simp))
      · simp only [List.cons_append] at h
        rw [List.cons.injEq] at h
        rcases h with ⟨rfl, h2⟩
        rcases ih (fun x hx => hpre x (by simp [hx])) h2 with ⟨a'', he, hp⟩
        exact ⟨a'', by rw [he, List.cons_append], hp⟩

/-! ## tryOpen failure lemmas -/

theorem dropWhile_sp_cons (l : Raw) :
    List.dropWhile isPySpace (' ' :: l) = List.dropWhile isPySpace l := rfl

theorem dropWhile_sp4 (l : Raw) :
    List.dropWhile isPySpace (sp4 ++ l) = List.dropWhile isPySpace l := by
  simp only [sp4, List.cons_append, List.nil_append]
  rfl

theorem tryOpen_head_ne_quote {id : Raw} {c : Char} (hc : c ≠ '"') (rest : Raw) :
    tryOpen id (c :: rest) = none := by
  unfold tryOpen keyPat
  simp only [List.cons_append]
  rw [stripPfx_head_ne (Ne.symm hc)]
  rfl

theorem tryOpen_nil (id : Raw) : tryOpen id [] = none := by
  unfold tryOpen keyPat
  rfl

/-- At a quoted name followed by a colon, the pattern can only proceed by
matching the whole name; if what follows the colon never reaches an opening
brace through whitespace, there is no match. -/
theorem tryOpen_keyvalue_none {id k rest : Raw}
    (hid : ∀ c ∈ id, c ≠ '"') (hk : ∀ c ∈ k, c ≠ '"')
    (h : openAfter rest = none) :
    tryOpen id ('"' :: k ++ '"' :: ':' :: rest) = none := by
  unfold tryOpen keyPat
  rcases hsp : stripPfx ('"' :: id ++ ['"', ':']) ('"' :: k ++ '"' :: ':' :: rest)
    with _ | r
  · rfl
  · have hsp' : stripPfx (id ++ ['"', ':']) (k ++ '"' :: ':' :: rest) = some r := by
      simpa [stripPfx] using hsp
    have : stripPfx (id ++ '"' :: [':']) (k ++ '"' :: ':' :: rest) = some r := hsp'
    rcases stripPfx_quoted hid hk [':'] (':' :: rest) r this with ⟨-, hr⟩
    have hrr : rest = r := by simpa [stripPfx] using hr
    subst hrr
    simp [hsp, h]

/-- At a quoted name followed by anything other than a colon, there is no
match. -/
theorem tryOpen_quoted_nocolon {id k : Raw} {c : Char} {rest : Raw}
    (hid : ∀ x ∈ id, x ≠ '"') (hk : ∀ x ∈ k, x ≠ '"') (hc : c ≠ ':') :
    tryOpen id ('"' :: k ++ '"' :: c :: rest) = none := by
  unfold tryOpen keyPat
  rcases hsp : stripPfx ('"' :: id ++ ['"', ':']) ('"' :: k ++ '"' :: c :: rest)
    with _ | r
  · rfl
  · have hsp' : stripPfx (id ++ '"' :: [':']) (k ++ '"' :: c :: rest) = some r := by
      simpa [stripPfx] using hsp
    rcases stripPfx_quoted hid hk [':'] (c :: rest) r hsp' with ⟨-, hr⟩
    rw [stripPfx_head_ne (fun he => hc he.symm)] at hr
    cases hr

/-- At a quote followed by a character that cannot begin an identifier, there
is no match. -/
theorem tryOpen_quote_headmismatch {id : Raw} {c : Char} {rest : Raw}
    (hid : safeId id = true) (hc : safeIdChar c = false) :
    tryOpen id ('"' :: c :: rest) = none := by
  rcases safeId_head_facts hid with ⟨c0, cs, rfl, hc0⟩
  unfold tryOpen keyPat
  simp only [List.cons_append]
  rw [show stripPfx ('"' :: c0 :: (cs ++ ['"', ':'])) ('"' :: c :: rest) =
      stripPfx (c0 :: (cs ++ ['"', ':'])) (c :: rest) from by simp [stripPfx]]
  rw [stripPfx_head_ne (safeIdChar_ne hc0 hc)]
  rfl

/-! ## Head of a serialized value -/

theorem natRepr_head (n : ℕ) :
    ∃ c cs, natRepr n = c :: cs ∧ c.isDigit = true := by
  unfold natRepr
  by_cases h : n = 0
  · exact ⟨'0', [], by rw [if_pos h], by decide⟩
  · rw [if_neg h]
    have hne : (Nat.digits 10 n).reverse ≠ [] := by
      simp [Nat.digits_ne_nil_iff_ne_zero, h]
    rcases hd : (Nat.digits 10 n).reverse with _ | ⟨d, ds⟩
    · exact absurd hd hne
    · refine ⟨Char.ofNat ('0'.toNat + d),
        ds.map (fun d => Char.ofNat ('0'.toNat + d)), rfl, ?_⟩
      have hdmem : d ∈ Nat.digits 10 n := by
        rw [← List.mem_reverse, hd]
        simp
      have hdlt : d < 10 := Nat.digits_lt_base (by norm_num) hdmem
      interval_cases d <;> decide

theorem intRepr_head (n : Int) :
    ∃ c cs, intRepr n = c :: cs ∧ (c.isDigit = true ∨ c = '-') := by
  unfold intRepr
  by_cases h : n < 0
  · exact ⟨'-', natRepr n.natAbs, by rw [if_pos h], Or.inr rfl⟩
  · rw [if_neg h]
    rcases natRepr_head n.toNat with ⟨c, cs, he, hc⟩
    exact ⟨c, cs, he, Or.inl hc⟩

theorem jvalText_head {v : JVal} (hv : safeVal v = true) :
    ∃ c cs, jvalText v = c :: cs ∧ isPySpace c = false ∧ c ≠ '\x7b' := by
  cases v with
  | jInt n =>
      rcases intRepr_head n with ⟨c, cs, he, hc⟩
      refine ⟨c, cs, he, ?_, ?_⟩
      · rcases hc with hdig | rfl
        · exact isDigit_isPySpace hdig
        · decide
      · rcases hc with hdig | rfl
        · rintro rfl
          exact absurd hdig (by decide)
        · decide
  | jBool b =>
      cases b
      · exact ⟨'f', "alse".toList, rfl, by decide, by decide⟩
      · exact ⟨'t', "rue".toList, rfl, by decide, by decide⟩
  | jStr s => exact ⟨'"', s.toList ++ ['"'], rfl, by decide, by decide⟩
  | jRat q => simp [safeVal] at hv

theorem openAfter_value {v : JVal} (hv : safeVal v = true) (X : Raw) :
    openAfter (' ' :: jvalText v ++ X) = none := by
  rcases jvalText_head hv with ⟨c0, cs, hval, hns, hnb⟩
  unfold openAfter
  simp only [List.cons_append]
  rw [dropWhile_sp_cons, hval, List.cons_append, List.dropWhile_cons, hns]
  simp only [Bool.false_eq_true, if_false]
  split
  · rename_i rest heq
    rw [List.cons.injEq] at heq
    exact absurd heq.1 hnb
  · rfl

/-! ## CleanO combinators -/

theorem cleanO_nil (id : Raw) : CleanO id [] := by
  intro a b Y hsplit hbne
  exact absurd (List.append_eq_nil.mp hsplit.symm).2 hbne

theorem cleanO_append {id : Raw} {X X' : Raw} (h1 : CleanO id X)
    (h2 : CleanO id X') : CleanO id (X ++ X') := by
  intro a b Y hsplit hbne
  rcases List.append_eq_append_iff.mp hsplit.symm with ⟨u, hXa, hb⟩ | ⟨u, ha, hX'⟩
  · rcases u with _ | ⟨u0, u'⟩
    · simp only [List.nil_append] at hb
      subst hb
      exact h2 [] b Y (by simp) hbne
    · rw [hb]
      have := h1 a (u0 :: u') (X' ++ Y) hXa (by simp)
      simpa [List.append_assoc] using this
  · exact h2 u b Y hX' hbne

theorem no_quote_no_split {l x y : Raw} (h : ∀ c ∈ l, c ≠ '"') :
    l ≠ x ++ '"' :: y := by
  intro he
  have : '"' ∈ l := by
    rw [he]
    simp
  exact h '"' this rfl

theorem cleanO_no_quote {id : Raw} {X : Raw} (h : ∀ c ∈ X, c ≠ '"') :
    CleanO id X := by
  intro a b Y hsplit hbne
  rcases b with _ | ⟨c, b'⟩
  · exact absurd rfl hbne
  · have hc : c ≠ '"' := h c (by rw [hsplit]; simp)
    simpa [List.cons_append] using tryOpen_head_ne_quote hc (b' ++ Y)

/-! ## Characters of serialized values -/

theorem natRepr_digits (n : ℕ) : ∀ c ∈ natRepr n, c.isDigit = true := by
  intro c hc
  unfold natRepr at hc
  by_cases h : n = 0
  · rw [if_pos h] at hc
    simp at hc
    subst hc
    decide
  · rw [if_neg h] at hc
    rcases List.mem_map.mp hc with ⟨d, hd, rfl⟩
    have hdlt : d < 10 := Nat.digits_lt_base (by norm_num) (List.mem_reverse.mp hd)
    interval_cases d <;> decide

theorem intRepr_chars (n : Int) : ∀ c ∈ intRepr n, c.isDigit = true ∨ c = '-' := by
  intro c hc
  unfold intRepr at hc
  by_cases h : n < 0
  · rw [if_pos h] at hc
    rcases List.mem_cons.mp hc with rfl | hc
    · exact Or.inr rfl
    · exact Or.inl (natRepr_digits _ c hc)
  · rw [if_neg h] at hc
    exact Or.inl (natRepr_digits _ c hc)

theorem safeStr_no_nl {s : String} (h : s.toList.all safeStrChar = true) :
    ∀ c ∈ s.toList, c ≠ '\n' := by
  intro c hc
  have h1 := List.all_eq_true.mp h c hc
  rintro rfl
  exact absurd h1 (by decide)

theorem jvalText_no_nl {v : JVal} (hv : safeVal v = true) :
    ∀ c ∈ jvalText v, c ≠ '\n' := by
  intro c hc
  cases v with
  | jInt n =>
      rcases intRepr_chars n c hc with hd | rfl
      · rintro rfl
        exact absurd hd (by decide)
      · decide
  | jBool b =>
      cases b
      · rw [show jvalText (JVal.jBool false) = ['f', 'a', 'l', 's', 'e'] from rfl] at hc
        simp only [List.mem_cons, List.not_mem_nil, or_false] at hc
        rcases hc with rfl | rfl | rfl | rfl | rfl <;> decide
      · rw [show jvalText (JVal.jBool true) = ['t', 'r', 'u', 'e'] from rfl] at hc
        simp only [List.mem_cons, List.not_mem_nil, or_false] at hc
        rcases hc with rfl | rfl | rfl | rfl <;> decide
  | jStr s =>
      simp only [jvalText] at hc
      rcases List.mem_cons.mp hc with rfl | hc2
      · decide
      · rcases List.mem_append.mp hc2 with hc3 | hc3
        · exact safeStr_no_nl (by simpa [safeVal] using hv) c hc3
        · simp at hc3
          subst hc3
          decide
  | jRat q => simp [safeVal] at hv

theorem jvalText_no_quote_int (n : Int) : ∀ c ∈ jvalText (.jInt n), c ≠ '"' := by
  intro c hc
  rcases intRepr_chars n c hc with hd | rfl
  · rintro rfl
    exact absurd hd (by decide)
  · decide

theorem jvalText_no_quote_bool (b : Bool) : ∀ c ∈ jvalText (.jBool b), c ≠ '"' := by
  intro c hc
  cases b
  · rw [show jvalText (JVal.jBool false) = ['f', 'a', 'l', 's', 'e'] from rfl] at hc
    simp only [List.mem_cons, List.not_mem_nil, or_false] at hc
    rcases hc with rfl | rfl | rfl | rfl | rfl <;> decide
  · rw [show jvalText (JVal.jBool true) = ['t', 'r', 'u', 'e'] from rfl] at hc
    simp only [List.mem_cons, List.not_mem_nil, or_false] at hc
    rcases hc with rfl | rfl | rfl | rfl <;> decide

/-! ## No pattern match can begin inside a serialized record line -/

theorem lineText_eq (k : String) (v : JVal) (isLast : Bool) :
    lineText k v isLast = (sp4 ++ sp4) ++ '"' :: (k.toList ++ '"' :: ':' :: ' ' ::
      (jvalText v ++ ((if isLast then [] else [',']) ++ ['\n']))) := by
  simp [lineText, entryLine, List.append_assoc]

theorem sp8_no_quote : ∀ x ∈ sp4 ++ sp4, x ≠ '"' := by
  intro x hx
  simp [sp4] at hx
  subst hx
  decide

theorem cleanO_lineCore {id : Raw} (hid : safeId id = true)
    (k : String) (v : JVal) (hk : k.toList.all safeStrChar = true)
    (hv : safeVal v = true) (tl : Raw)
    (htlq : ∀ x ∈ tl, x ≠ '"')
    (d : Char) (tl' : Raw) (htl : tl = d :: tl')
    (hd1 : safeIdChar d = false) (hd2 : d ≠ ':') :
    CleanO id ((sp4 ++ sp4) ++ '"' :: (k.toList ++ '"' :: ':' :: ' ' ::
      (jvalText v ++ tl))) := by
  have hidq : ∀ x ∈ id, x ≠ '"' := safeId_no_quote hid
  have hkq : ∀ x ∈ k.toList, x ≠ '"' := safeStr_no_quote hk
  intro a b Y hsplit hbne
  rcases b with _ | ⟨c, b'⟩
  · exact absurd rfl hbne
  by_cases hcq : c = '"'
  case neg =>
    simp only [List.cons_append]
    exact tryOpen_head_ne_quote hcq (b' ++ Y)
  case pos =>
    subst hcq
    rcases quote_split sp8_no_quote hsplit with ⟨a1, ha1, hpost⟩
    rcases a1 with _ | ⟨c1, a1'⟩
    · -- position: opening quote of the key
      simp only [List.nil_append, List.cons.injEq] at hpost
      rcases hpost with ⟨-, hb⟩
      subst hb
      have hnone := @tryOpen_keyvalue_none _ _ (' ' :: jvalText v ++ (tl ++ Y))
        hidq hkq (openAfter_value hv (tl ++ Y))
      simpa [List.append_assoc] using hnone
    · simp only [List.cons_append, List.cons.injEq] at hpost
      rcases hpost with ⟨-, hpost2⟩
      rcases quote_split hkq hpost2 with ⟨a2, ha2, hpost3⟩
      rcases a2 with _ | ⟨c2, a2'⟩
      · -- position: closing quote of the key
        simp only [List.nil_append, List.cons.injEq] at hpost3
        rcases hpost3 with ⟨-, hb⟩
        subst hb
        simp only [List.cons_append]
        exact tryOpen_quote_headmismatch hid (by decide)
      · simp only [List.cons_append, List.cons.injEq] at hpost3
        rcases hpost3 with ⟨-, hpost4⟩
        -- hpost4 : ':' :: ' ' :: (jvalText v ++ tl) = a2' ++ '"' :: b'
        cases v with
        | jRat q => simp [safeVal] at hv
        | jInt n =>
            refine absurd hpost4 (no_quote_no_split ?_)
            intro x hx
            rcases List.mem_cons.mp hx with rfl | hx2
            · decide
            rcases List.mem_cons.mp hx2 with rfl | hx3
            · decide
            rcases List.mem_append.mp hx3 with hx4 | hx4
            · exact jvalText_no_quote_int n x hx4
            · exact htlq x hx4
        | jBool bb =>
            refine absurd hpost4 (no_quote_no_split ?_)
            intro x hx
            rcases List.mem_cons.mp hx with rfl | hx2
            · decide
            rcases List.mem_cons.mp hx2 with rfl | hx3
            · decide
            rcases List.mem_append.mp hx3 with hx4 | hx4
            · exact jvalText_no_quote_bool bb x hx4
            · exact htlq x hx4
        | jStr s =>
            have hsq : ∀ x ∈ s.toList, x ≠ '"' :=
              safeStr_no_quote (by simpa [safeVal] using hv)
            have hpost4' : ([':', ' '] : Raw) ++
                ('"' :: (s.toList ++ '"' :: tl)) = a2' ++ '"' :: b' := by
              simpa [jvalText, List.append_assoc] using hpost4
            have hpre2 : ∀ x ∈ ([':', ' '] : Raw), x ≠ '"' := by
              intro x hx
              rcases List.mem_cons.mp hx with rfl | hx2
              · decide
              rcases List.mem_cons.mp hx2 with rfl | hx3
              · decide
              · exact absurd hx3 (List.not_mem_nil x)
            rcases quote_split hpre2 hpost4' with ⟨a3, ha3, hpost5⟩
            rcases a3 with _ | ⟨c3, a3'⟩
            · -- position: opening quote of the string value
              simp only [List.nil_append, List.cons.injEq] at hpost5
              rcases hpost5 with ⟨-, hb⟩
              subst hb
              subst htl
              have hnone := @tryOpen_quoted_nocolon _ _ d (tl' ++ Y)
                hidq hsq hd2
              simpa [List.append_assoc] using hnone
            · simp only [List.cons_append, List.cons.injEq] at hpost5
              rcases hpost5 with ⟨-, hpost6⟩
              rcases quote_split hsq hpost6 with ⟨a4, ha4, hpost7⟩
              rcases a4 with _ | ⟨c4, a4'⟩
              · -- position: closing quote of the string value
                simp only [List.nil_append, List.cons.injEq] at hpost7
                rcases hpost7 with ⟨-, hb⟩
                subst hb
                subst htl
                simp only [List.cons_append]
                exact tryOpen_quote_headmismatch hid hd1
              · simp only [List.cons_append, List.cons.injEq] at hpost7
                rcases hpost7 with ⟨-, hpost8⟩
                exact absurd hpost8 (no_quote_no_split htlq)

theorem cleanO_lineText {id : Raw} (hid : safeId id = true)
    (k : String) (v : JVal) (hk : k.toList.all safeStrChar = true)
    (hv : safeVal v = true) (isLast : Bool) :
    CleanO id (lineText k v isLast) := by
  rw [lineText_eq]
  cases isLast
  · exact cleanO_lineCore hid k v hk hv [',', '\n']
      (by intro x hx; rcases List.mem_cons.mp hx with rfl | hx2
          · decide
          · rcases List.mem_cons.mp hx2 with rfl | hx3
            · decide
            · exact absurd hx3 (List.not_mem_nil x))
      ',' ['\n'] rfl (by decide) (by decide)
  · exact cleanO_lineCore hid k v hk hv ['\n']
      (by intro x hx
          rcases List.mem_cons.mp hx with rfl | hx2
          · decide
          · exact absurd hx2 (List.not_mem_nil x))
      '\n' [] rfl (by decide) (by decide)

/-! ## CleanO for whole canonical entries -/

theorem safeRecord_mem {r : Record} (h : safeRecord r = true) :
    ∀ kv ∈ r, kv.1.toList.all safeStrChar = true ∧ safeVal kv.2 = true := by
  intro kv hkv
  rcases (Bool.and_eq_true _ _).mp h with ⟨-, hall⟩
  have := List.all_eq_true.mp hall kv hkv
  exact (Bool.and_eq_true _ _).mp this

theorem safeRecord_ne_nil {r : Record} (h : safeRecord r = true) : r ≠ [] := by
  rcases (Bool.and_eq_true _ _).mp h with ⟨hne, -⟩
  simpa using hne

theorem safeRecord_cons_cons {kv kv2 : String × JVal} {t : Record}
    (h : safeRecord (kv :: kv2 :: t) = true) : safeRecord (kv2 :: t) = true := by
  rcases (Bool.and_eq_true _ _).mp h with ⟨-, hall⟩
  simp only [List.all_cons, Bool.and_eq_true] at hall
  unfold safeRecord
  simp only [List.isEmpty_cons, Bool.not_false, List.all_cons, Bool.true_and]
  exact (Bool.and_eq_true _ _).mpr ⟨(Bool.and_eq_true _ _).mpr hall.2.1,
    List.all_eq_true.mpr (fun kv' h' => List.all_eq_true.mp hall.2.2 kv' h')⟩

theorem cleanO_linesText {id : Raw} (hid : safeId id = true) {r : Record}
    (hr : safeRecord r = true) : CleanO id (linesText r) := by
  induction r with
  | nil => exact cleanO_nil id
  | cons kv t ih =>
      rcases t with _ | ⟨kv2, t2⟩
      · rcases safeRecord_mem hr kv (by simp) with ⟨hk, hv⟩
        exact cleanO_lineText hid kv.1 kv.2 hk hv true
      · rcases safeRecord_mem hr kv (by simp) with ⟨hk, hv⟩
        exact cleanO_append (cleanO_lineText hid kv.1 kv.2 hk hv false)
          (ih (safeRecord_cons_cons hr))

theorem tryOpen_keyname_ne {id k rest : Raw}
    (hid : ∀ c ∈ id, c ≠ '"') (hk : ∀ c ∈ k, c ≠ '"') (hne : k ≠ id) :
    tryOpen id ('"' :: k ++ '"' :: ':' :: rest) = none := by
  unfold tryOpen keyPat
  rcases hsp : stripPfx ('"' :: id ++ ['"', ':']) ('"' :: k ++ '"' :: ':' :: rest)
    with _ | r
  · rfl
  · have hsp' : stripPfx (id ++ '"' :: [':']) (k ++ '"' :: ':' :: rest) = some r := by
      simpa [stripPfx] using hsp
    rcases stripPfx_quoted hid hk [':'] (':' :: rest) r hsp' with ⟨heq, -⟩
    exact absurd heq.symm hne

theorem sp4_no_quote : ∀ x ∈ sp4, x ≠ '"' := by
  intro x hx
  simp [sp4] at hx
  subst hx
  decide

theorem cleanO_entryHead {id k : Raw} (hid : safeId id = true)
    (hkq : ∀ x ∈ k, x ≠ '"') (hne : k ≠ id) :
    CleanO id (sp4 ++ '"' :: (k ++ '"' :: [':', ' ', '\x7b'])) := by
  have hidq : ∀ x ∈ id, x ≠ '"' := safeId_no_quote hid
  intro a b Y hsplit hbne
  rcases b with _ | ⟨c, b'⟩
  · exact absurd rfl hbne
  by_cases hcq : c = '"'
  case neg =>
    simp only [List.cons_append]
    exact tryOpen_head_ne_quote hcq (b' ++ Y)
  case pos =>
    subst hcq
    rcases quote_split sp4_no_quote hsplit with ⟨a1, ha1, hpost⟩
    rcases a1 with _ | ⟨c1, a1'⟩
    · simp only [List.nil_append, List.cons.injEq] at hpost
      rcases hpost with ⟨-, hb⟩
      subst hb
      have hnone := @tryOpen_keyname_ne _ _ ([' ', '\x7b'] ++ Y) hidq hkq hne
      simpa [List.append_assoc] using hnone
    · simp only [List.cons_append, List.cons.injEq] at hpost
      rcases hpost with ⟨-, hpost2⟩
      rcases quote_split hkq hpost2 with ⟨a2, ha2, hpost3⟩
      rcases a2 with _ | ⟨c2, a2'⟩
      · simp only [List.nil_append, List.cons.injEq] at hpost3
        rcases hpost3 with ⟨-, hb⟩
        subst hb
        simp only [List.cons_append]
        exact tryOpen_quote_headmismatch hid (by decide)
      · simp only [List.cons_append, List.cons.injEq] at hpost3
        rcases hpost3 with ⟨-, hpost4⟩
        refine absurd hpost4 (no_quote_no_split ?_)
        intro x hx
        rcases List.mem_cons.mp hx with rfl | hx2
        · decide
        rcases List.mem_cons.mp hx2 with rfl | hx3
        · decide
        rcases List.mem_cons.mp hx3 with rfl | hx4
        · decide
        · exact absurd hx4 (List.not_mem_nil x)

theorem canonEntry_decomp (k : Raw) (r : Record) (h : r ≠ []) :
    canonEntry (k, r) = (sp4 ++ '"' :: (k ++ '"' :: [':', ' ', '\x7b'])) ++
      (['\n'] ++ (linesText r ++ (sp4 ++ ['\x7d', ',', '\n']))) := by
  rw [canonEntry_shape (k, r) h]
  simp [List.append_assoc]

theorem cleanO_canonEntry {id : Raw} (hid : safeId id = true) {k : Raw}
    {r : Record} (hkq : ∀ x ∈ k, x ≠ '"') (hr : safeRecord r = true)
    (hne : k ≠ id) : CleanO id (canonEntry (k, r)) := by
  rw [canonEntry_decomp k r (safeRecord_ne_nil hr)]
  refine cleanO_append (cleanO_entryHead hid hkq hne) ?_
  refine cleanO_append (cleanO_no_quote (by intro x hx; simp at hx; subst hx; decide)) ?_
  refine cleanO_append (cleanO_linesText hid hr) ?_
  apply cleanO_no_quote
  intro x hx
  simp [sp4] at hx
  rcases hx with rfl | rfl | rfl | rfl <;> decide

/-! ## Scanner lemmas: replace-all over clean text, and at a match -/

theorem tryUpd_none_of_tryOpen {id s : Raw} (h : tryOpen id s = none) :
    tryUpd id s = none := by
  unfold tryUpd
  rw [h]
  rfl

theorem subUpd_nil (id repl : Raw) : subUpd id repl [] = [] := by
  rw [subUpd]

theorem subIns_nil (id repl : Raw) : subIns id repl [] = [] := by
  rw [subIns]

theorem subUpd_cons (id repl : Raw) (c : Char) (t : Raw) :
    subUpd id repl (c :: t) =
      match tryUpd id (c :: t) with
      | some rest => repl ++ subUpd id repl rest
      | none => c :: subUpd id repl t := by
  rw [subUpd.eq_def]
  split
  · rename_i heq
    cases heq
  · rename_i hay head t2 heq
    injection heq with h1 h2
    subst h1
    subst h2
    split
    · rename_i rest heq2
      rw [heq2]
    · rename_i heq2
      rw [heq2]

theorem subUpd_cons_none {id repl : Raw} {c : Char} {t : Raw}
    (h : tryUpd id (c :: t) = none) :
    subUpd id repl (c :: t) = c :: subUpd id repl t := by
  rw [subUpd_cons, h]

theorem subUpd_cons_some {id repl s rest : Raw} (h : tryUpd id s = some rest) :
    subUpd id repl s = repl ++ subUpd id repl rest := by
  rcases s with _ | ⟨c, t⟩
  · rw [tryUpd_none_of_tryOpen (tryOpen_nil id)] at h
    cases h
  · rw [subUpd_cons, h]

theorem subIns_cons (id repl : Raw) (c : Char) (t : Raw) :
    subIns id repl (c :: t) =
      match tryOpen id (c :: t) with
      | some rest => repl ++ subIns id repl rest
      | none => c :: subIns id repl t := by
  rw [subIns.eq_def]
  split
  · rename_i heq
    cases heq
  · rename_i hay head t2 heq
    injection heq with h1 h2
    subst h1
    subst h2
    split
    · rename_i rest heq2
      rw [heq2]
    · rename_i heq2
      rw [heq2]

theorem subIns_cons_none {id repl : Raw} {c : Char} {t : Raw}
    (h : tryOpen id (c :: t) = none) :
    subIns id repl (c :: t) = c :: subIns id repl t := by
  rw [subIns_cons, h]

theorem subIns_cons_some {id repl s rest : Raw} (h : tryOpen id s = some rest) :
    subIns id repl s = repl ++ subIns id repl rest := by
  rcases s with _ | ⟨c, t⟩
  · rw [tryOpen_nil id] at h
    cases h
  · rw [subIns_cons, h]

theorem subUpd_append_clean {id repl X : Raw} (h : CleanO id X) (Y : Raw) :
    subUpd id repl (X ++ Y) = X ++ subUpd id repl Y := by
  induction X with
  | nil => simp
  | cons c X' ih =>
      have hnone : tryOpen id ((c :: X') ++ Y) = none :=
        h [] (c :: X') Y rfl (by simp)
      have h' : CleanO id X' := by
        intro a b Y' hs hb
        exact h (c :: a) b Y' (by rw [hs]; rfl) hb
      simp only [List.cons_append] at hnone ⊢
      rw [subUpd_cons_none (tryUpd_none_of_tryOpen hnone), ih h']

theorem subIns_append_clean {id repl X : Raw} (h : CleanO id X) (Y : Raw) :
    subIns id repl (X ++ Y) = X ++ subIns id repl Y := by
  induction X with
  | nil => simp
  | cons c X' ih =>
      have hnone : tryOpen id ((c :: X') ++ Y) = none :=
        h [] (c :: X') Y rfl (by simp)
      have h' : CleanO id X' := by
        intro a b Y' hs hb
        exact h (c :: a) b Y' (by rw [hs]; rfl) hb
      simp only [List.cons_append] at hnone ⊢
      rw [subIns_cons_none hnone, ih h']

theorem subUpd_clean_self {id repl X : Raw} (h : CleanO id X) :
    subUpd id repl X = X := by
  have := @subUpd_append_clean id repl X h []
  simpa [subUpd_nil] using this

theorem subIns_clean_self {id repl X : Raw} (h : CleanO id X) :
    subIns id repl X = X := by
  have := @subIns_append_clean id repl X h []
  simpa [subIns_nil] using this

/-! ## findTerm through a serialized block -/

theorem findTerm_append_no_nl {body s : Raw} (h : ∀ c ∈ body, c ≠ '\n') :
    findTerm (body ++ s) = findTerm s := by
  induction body with
  | nil => simp
  | cons c t ih =>
      simp only [List.cons_append, findTerm]
      rw [if_neg]
      · exact ih (fun x hx => h x (by simp [hx]))
      · exact h c (by simp)

theorem entryLine_no_nl {k : String} {v : JVal} {isLast : Bool}
    (hk : k.toList.all safeStrChar = true) (hv : safeVal v = true) :
    ∀ c ∈ sp4 ++ entryLine k v isLast, c ≠ '\n' := by
  intro c hc
  rcases List.mem_append.mp hc with hx | hx
  · simp [sp4] at hx
    subst hx
    decide
  · unfold entryLine at hx
    rcases List.mem_append.mp hx with hx2 | hx2
    · rcases List.mem_append.mp hx2 with h2 | h2
      · rcases List.mem_append.mp h2 with h3 | h3
        · simp [sp4] at h3
          subst h3
          decide
        · rcases List.mem_cons.mp h3 with rfl | h4
          · decide
          · exact safeStr_no_nl hk c h4
      · rcases List.mem_cons.mp h2 with rfl | h4
        · decide
        rcases List.mem_cons.mp h4 with rfl | h5
        · decide
        rcases List.mem_cons.mp h5 with rfl | h6
        · decide
        · exact jvalText_no_nl hv c h6
    · cases isLast
      · simp at hx2
        subst hx2
        decide
      · simp at hx2

theorem dropWhile_lineText_head (k : String) (v : JVal) (l : Bool) (X : Raw) :
    List.dropWhile isPySpace (lineText k v l ++ X) =
      '"' :: ((k.toList ++ '"' :: ':' :: ' ' ::
        (jvalText v ++ ((if l then [] else [',']) ++ ['\n']))) ++ X) := by
  rw [lineText_eq]
  simp only [List.append_assoc, List.cons_append]
  rw [dropWhile_sp4, dropWhile_sp4]
  rfl

theorem findTerm_nl_fail {t : Raw} {u : Raw}
    (hdrop : List.dropWhile isPySpace t = '"' :: u) :
    findTerm ('\n' :: t) = findTerm t := by
  conv_lhs => rw [findTerm]
  rw [if_pos rfl, hdrop]
  split
  · rename_i rest heq
    injection heq with h1 h2
    exact absurd h1 (by decide)
  · rfl

theorem findTerm_close (T : Raw) :
    findTerm ('\n' :: (sp4 ++ '\x7d' :: ',' :: T)) = some T := by
  conv_lhs => rw [findTerm]
  rw [if_pos rfl, dropWhile_sp4]
  rw [show List.dropWhile isPySpace ('\x7d' :: ',' :: T) = '\x7d' :: ',' :: T from rfl]
  split
  · rename_i rest heq
    injection heq with h1 h2
    injection h2 with h3 h4
    rw [h4]
  · rename_i hfun
    exact absurd rfl (hfun T)

theorem findTerm_linesBlock {r : Record} (hr : safeRecord r = true) (T : Raw) :
    findTerm ('\n' :: (linesText r ++ (sp4 ++ '\x7d' :: ',' :: T))) = some T := by
  induction r with
  | nil => exact absurd rfl (safeRecord_ne_nil hr)
  | cons kv t ih =>
      rcases safeRecord_mem hr kv (by simp) with ⟨hk, hv⟩
      rcases t with _ | ⟨kv2, t2⟩
      · simp only [linesText]
        rw [findTerm_nl_fail (by rw [dropWhile_lineText_head])]
        have hlx : lineText kv.1 kv.2 true ++ (sp4 ++ '\x7d' :: ',' :: T) =
            (sp4 ++ entryLine kv.1 kv.2 true) ++
              ('\n' :: (sp4 ++ '\x7d' :: ',' :: T)) := by
          simp [lineText, List.append_assoc]
        rw [hlx, findTerm_append_no_nl (entryLine_no_nl hk hv), findTerm_close]
      · simp only [linesText]
        rw [List.append_assoc]
        rw [findTerm_nl_fail (by rw [dropWhile_lineText_head])]
        have hlx : lineText kv.1 kv.2 false ++
            (linesText (kv2 :: t2) ++ (sp4 ++ '\x7d' :: ',' :: T)) =
            (sp4 ++ entryLine kv.1 kv.2 false) ++
              ('\n' :: (linesText (kv2 :: t2) ++ (sp4 ++ '\x7d' :: ',' :: T))) := by
          simp [lineText, List.append_assoc]
        rw [hlx, findTerm_append_no_nl (entryLine_no_nl hk hv)]
        exact ih (safeRecord_cons_cons hr)

/-! ## Matching at the head of a canonical entry -/

theorem tryOpen_at_entry (id : Raw) {r : Record} (hr : r ≠ []) (T : Raw) :
    tryOpen id ('"' :: (id ++ '"' :: ':' :: ' ' :: (serializeBlock r ++ T))) =
      some ('\n' :: (linesText r ++ sp4 ++ ['\x7d']) ++ T) := by
  unfold tryOpen keyPat
  have hsp : '"' :: (id ++ '"' :: ':' :: ' ' :: (serializeBlock r ++ T)) =
      ('"' :: id ++ ['"', ':']) ++ (' ' :: (serializeBlock r ++ T)) := by
    simp [List.append_assoc]
  rw [hsp, stripPfx_append]
  rw [serializeBlock_shape r hr]
  simp only [Option.some_bind, openAfter, dropWhile_sp_cons]
  rw [show List.dropWhile isPySpace (('\x7b' :: '\n' ::
      (linesText r ++ sp4 ++ ['\x7d'])) ++ T) = ('\x7b' :: '\n' ::
      (linesText r ++ sp4 ++ ['\x7d'])) ++ T from rfl]
  simp [List.append_assoc]

theorem tryUpd_at_entry (id : Raw) {r : Record} (hr : safeRecord r = true)
    (T : Raw) :
    tryUpd id ('"' :: (id ++ '"' :: ':' :: ' ' ::
      (serializeBlock r ++ ',' :: T))) = some T := by
  unfold tryUpd
  rw [tryOpen_at_entry id (safeRecord_ne_nil hr) (',' :: T)]
  simp only [Option.some_bind]
  have : '\n' :: (linesText r ++ sp4 ++ ['\x7d']) ++ ',' :: T =
      '\n' :: (linesText r ++ (sp4 ++ '\x7d' :: ',' :: T)) := by
    simp [List.append_assoc]
  rw [this, findTerm_linesBlock hr]

/-! ## Block replacement on a canonical registry text -/

theorem canonEntry_cons_rest (k : Raw) (r : Record) (REST : Raw) :
    canonEntry (k, r) ++ REST =
      sp4 ++ ('"' :: (k ++ '"' :: ':' :: ' ' ::
        (serializeBlock r ++ ',' :: ('\n' :: REST)))) := by
  simp [canonEntry, List.append_assoc]

theorem subUpd_entries {id : Raw} (hid : safeId id = true) {rec : Record}
    (hrec : safeRecord rec = true) (es : Registry)
    (hsafe : ∀ p ∈ es, safeId p.1 = true ∧ safeRecord p.2 = true) :
    subUpd id (updReplacement id rec) ((es.map canonEntry).join ++ ['\x7d']) =
      ((setRec es id rec).map canonEntry).join ++ ['\x7d'] := by
  induction es with
  | nil =>
      simp only [List.map_nil, List.join, List.nil_append, setRec]
      exact subUpd_clean_self (cleanO_no_quote (by
        intro x hx
        simp at hx
        subst hx
        decide))
  | cons p es' ih =>
      rcases p with ⟨k, r⟩
      rcases hsafe (k, r) (by simp) with ⟨hkId, hkRec⟩
      have hrest : ((((k, r) :: es').map canonEntry).join ++ ['\x7d'] : Raw) =
          canonEntry (k, r) ++ ((es'.map canonEntry).join ++ ['\x7d']) := by
        simp [List.append_assoc]
      rw [hrest]
      have ih' := ih (fun p hp => hsafe p (by simp [hp]))
      by_cases hkeq : k = id
      · subst hkeq
        rw [canonEntry_cons_rest]
        rw [subUpd_append_clean (cleanO_no_quote sp4_no_quote)]
        rw [subUpd_cons_some (tryUpd_at_entry k hkRec _)]
        have hnl : subUpd k (updReplacement k rec)
            ('\n' :: ((es'.map canonEntry).join ++ ['\x7d'])) =
            '\n' :: subUpd k (updReplacement k rec)
              ((es'.map canonEntry).join ++ ['\x7d']) := by
          have := @subUpd_append_clean k (updReplacement k rec) ['\n']
            (cleanO_no_quote (X := ['\n']) (by
              intro x hx
              simp at hx
              subst hx
              decide))
            ((es'.map canonEntry).join ++ ['\x7d'])
          simpa using this
        rw [hnl, ih']
        have hset : setRec ((k, r) :: es') k rec = (k, rec) :: setRec es' k rec := by
          simp [setRec]
        rw [hset]
        have : (((k, rec) :: setRec es' k rec).map canonEntry).join ++ ['\x7d'] =
            canonEntry (k, rec) ++
              (((setRec es' k rec).map canonEntry).join ++ ['\x7d']) := by
          simp [List.append_assoc]
        rw [this, canonEntry_cons_rest]
        simp [updReplacement, List.append_assoc]
      · rw [subUpd_append_clean
          (cleanO_canonEntry hid (safeId_no_quote hkId) hkRec hkeq), ih']
        have hset : setRec ((k, r) :: es') id rec = (k, r) :: setRec es' id rec := by
          simp [setRec, hkeq]
        rw [hset]
        simp [List.append_assoc]

theorem subUpd_canonRaw {id : Raw} (hid : safeId id = true) {rec : Record}
    (hrec : safeRecord rec = true) (es : Registry)
    (hsafe : ∀ p ∈ es, safeId p.1 = true ∧ safeRecord p.2 = true) :
    subUpd id (updReplacement id rec) (canonRaw es) =
      canonRaw (setRec es id rec) := by
  unfold canonRaw
  have hsplit : ('\x7b' :: '\n' :: (es.map canonEntry).join ++ ['\x7d'] : Raw) =
      (['\x7b', '\n'] : Raw) ++ ((es.map canonEntry).join ++ ['\x7d']) := by
    simp
  rw [hsplit]
  rw [subUpd_append_clean (cleanO_no_quote (by
    intro x hx
    simp at hx
    rcases hx with rfl | rfl <;> decide))]
  rw [subUpd_entries hid hrec es hsafe]
  simp

/-! ## Insertion before a successor entry on a canonical registry text -/

theorem tryOpen_at_entryOpen (id : Raw) (rest : Raw) :
    tryOpen id ('"' :: (id ++ '"' :: ':' :: ' ' :: ('\x7b' :: rest))) = some rest := by
  unfold tryOpen keyPat
  rw [show '"' :: (id ++ '"' :: ':' :: ' ' :: ('\x7b' :: rest)) =
      ('"' :: id ++ ['"', ':']) ++ (' ' :: '\x7b' :: rest) from by
    simp [List.append_assoc]]
  rw [stripPfx_append]
  simp only [Option.some_bind, openAfter, dropWhile_sp_cons]
  rfl

theorem cleanO_blockTail {next : Raw} (hnext : safeId next = true) {r : Record}
    (hr : safeRecord r = true) :
    CleanO next ('\n' :: (linesText r ++ (sp4 ++ ['\x7d', ',', '\n']))) := by
  have h1 : ('\n' :: (linesText r ++ (sp4 ++ ['\x7d', ',', '\n'])) : Raw) =
      ['\n'] ++ (linesText r ++ (sp4 ++ ['\x7d', ',', '\n'])) := rfl
  rw [h1]
  refine cleanO_append (cleanO_no_quote (by
    intro x hx
    simp at hx
    subst hx
    decide)) ?_
  refine cleanO_append (cleanO_linesText hnext hr) ?_
  apply cleanO_no_quote
  intro x hx
  simp [sp4] at hx
  rcases hx with rfl | rfl | rfl | rfl <;> decide

theorem subIns_entries {next : Raw} (hnext : safeId next = true)
    (id : Raw) (rec : Record) (es : Registry)
    (hsafe : ∀ p ∈ es, safeId p.1 = true ∧ safeRecord p.2 = true) :
    subIns next (insReplacement id rec next)
        ((es.map canonEntry).join ++ ['\x7d']) =
      ((insertBeforeKey es next id rec).map canonEntry).join ++ ['\x7d'] := by
  induction es with
  | nil =>
      simp only [List.map_nil, List.join, List.nil_append, insertBeforeKey,
        List.flatMap_nil]
      exact subIns_clean_self (cleanO_no_quote (by
        intro x hx
        simp at hx
        subst hx
        decide))
  | cons p es' ih =>
      rcases p with ⟨k, r⟩
      rcases hsafe (k, r) (by simp) with ⟨hkId, hkRec⟩
      have hrest : ((((k, r) :: es').map canonEntry).join ++ ['\x7d'] : Raw) =
          canonEntry (k, r) ++ ((es'.map canonEntry).join ++ ['\x7d']) := by
        simp [List.append_assoc]
      rw [hrest]
      have ih' := ih (fun p hp => hsafe p (by simp [hp]))
      by_cases hkeq : k = next
      · subst hkeq
        rw [canonEntry_cons_rest]
        rw [subIns_append_clean (cleanO_no_quote sp4_no_quote)]
        have hblock : (serializeBlock r ++ ',' ::
            ('\n' :: ((es'.map canonEntry).join ++ ['\x7d'])) : Raw) =
            '\x7b' :: (('\n' :: (linesText r ++ (sp4 ++ ['\x7d', ',', '\n']))) ++
              ((es'.map canonEntry).join ++ ['\x7d'])) := by
          rw [serializeBlock_shape r (safeRecord_ne_nil hkRec)]
          simp [List.append_assoc]
        rw [hblock]
        rw [subIns_cons_some (tryOpen_at_entryOpen k _)]
        rw [subIns_append_clean (cleanO_blockTail hnext hkRec)]
        rw [ih']
        have hins : insertBeforeKey ((k, r) :: es') k id rec =
            (id, rec) :: (k, r) :: insertBeforeKey es' k id rec := by
          simp [insertBeforeKey]
        rw [hins]
        have hr2 : ((((id, rec) :: (k, r) :: insertBeforeKey es' k id rec).map
            canonEntry).join ++ ['\x7d'] : Raw) =
            canonEntry (id, rec) ++ (canonEntry (k, r) ++
              (((insertBeforeKey es' k id rec).map canonEntry).join ++ ['\x7d'])) := by
          simp [List.append_assoc]
        rw [hr2, canonEntry_cons_rest (k := id)]
        rw [canonEntry_cons_rest (k := k)]
        rw [serializeBlock_shape r (safeRecord_ne_nil hkRec)]
        simp [insReplacement, List.append_assoc]
      · rw [subIns_append_clean
          (cleanO_canonEntry hnext (safeId_no_quote hkId) hkRec hkeq), ih']
        have hins : insertBeforeKey ((k, r) :: es') next id rec =
            (k, r) :: insertBeforeKey es' next id rec := by
          simp [insertBeforeKey, hkeq]
        rw [hins]
        simp [List.append_assoc]

theorem subIns_canonRaw {next : Raw} (hnext : safeId next = true)
    (id : Raw) (rec : Record) (es : Registry)
    (hsafe : ∀ p ∈ es, safeId p.1 = true ∧ safeRecord p.2 = true) :
    subIns next (insReplacement id rec next) (canonRaw es) =
      canonRaw (insertBeforeKey es next id rec) := by
  unfold canonRaw
  have hsplit : ('\x7b' :: '\n' :: (es.map canonEntry).join ++ ['\x7d'] : Raw) =
      (['\x7b', '\n'] : Raw) ++ ((es.map canonEntry).join ++ ['\x7d']) := by
    simp
  rw [hsplit]
  rw [subIns_append_clean (cleanO_no_quote (by
    intro x hx
    simp at hx
    rcases hx with rfl | rfl <;> decide))]
  rw [subIns_entries hnext id rec es hsafe]
  simp

/-! ## C4: alphabetical insertion position for a new identifier

The code sorts `existing keys ++ [new id]`, finds the new id's index, and
either appends at the end of the text (when the id sorts last) or splices the
new block before the alphabetical successor's opening pattern. -/

theorem indexOf_append_self (id : Raw) (A B : List Raw) (h : id ∉ A) :
    (A ++ id :: B).indexOf id = A.length := by
  induction A with
  | nil => simp [List.indexOf, List.findIdx_cons]
  | cons a A' ih =>
      have hne : a ≠ id := fun he => h (he ▸ List.mem_cons_self a A')
      have hh : id ∉ A' := fun hm => h (List.mem_cons_of_mem a hm)
      simp only [List.cons_append, List.indexOf, List.findIdx_cons]
      have hb : (a == id) = false := by simp [hne]
      rw [hb]
      simpa [List.indexOf] using ih hh

theorem getD_append_cons (x : Raw) (A B : List Raw) (d : Raw) :
    (A ++ x :: B).getD (A.length + 1) d = B.getD 0 d := by
  induction A with
  | nil => rfl
  | cons a A' ih => simpa using ih

/-- When the new identifier is strictly greater than every existing key, the
sort places it last. -/
theorem sorted_insert_last (keys : List Raw) (id : Raw) (hnew : id ∉ keys)
    (hmax : ∀ k ∈ keys, k < id) :
    List.insertionSort (· ≤ ·) (keys ++ [id]) =
      List.insertionSort (· ≤ ·) keys ++ [id] := by
  have hsr : List.Sorted (· ≤ ·) (List.insertionSort (· ≤ ·) keys ++ [id]) := by
    refine List.pairwise_append.mpr
      ⟨List.sorted_insertionSort _ _, List.sorted_singleton id, ?_⟩
    intro x hx y hy
    have hy' : y = id := by simpa using hy
    subst hy'
    exact le_of_lt (hmax x ((List.perm_insertionSort (· ≤ ·) keys).subset hx))
  exact List.eq_of_perm_of_sorted
    ((List.perm_insertionSort _ _).trans
      ((List.perm_insertionSort (· ≤ ·) keys).append_right [id]).symm)
    (List.sorted_insertionSort _ _) hsr

/-- When some existing key exceeds the new identifier, the element after the
new identifier in the sorted list is the least key greater than it, and the
new identifier is not last. -/
theorem sorted_successor (keys : List Raw) (id next : Raw)
    (hnd : keys.Nodup) (hnew : id ∉ keys)
    (hmem : next ∈ keys) (hlt : id < next)
    (hmin : ∀ k ∈ keys, id < k → next ≤ k) :
    (List.insertionSort (· ≤ ·) (keys ++ [id])).getD
        ((List.insertionSort (· ≤ ·) (keys ++ [id])).indexOf id + 1) [] = next ∧
      (List.insertionSort (· ≤ ·) (keys ++ [id])).indexOf id ≠
        (List.insertionSort (· ≤ ·) (keys ++ [id])).length - 1 := by
  set S := List.insertionSort (· ≤ ·) (keys ++ [id]) with hSdef
  have hperm : List.Perm S (keys ++ [id]) := List.perm_insertionSort _ _
  have hsorted : List.Sorted (· ≤ ·) S := List.sorted_insertionSort _ _
  have hmk_nd : (keys ++ [id]).Nodup := by
    have hiff : (keys ++ [id]).Nodup ↔ (id :: keys).Nodup := by
      have hmid : (keys ++ id :: ([] : List Raw)).Nodup ↔
          (id :: (keys ++ [])).Nodup := List.nodup_middle
      simpa using hmid
    exact hiff.mpr (List.nodup_cons.mpr ⟨hnew, hnd⟩)
  have hSnd : S.Nodup := hperm.symm.nodup hmk_nd
  have hidS : id ∈ S := hperm.mem_iff.mpr (by simp)
  obtain ⟨A, B, hAB⟩ := List.append_of_mem hidS
  have hidAB : id ∉ A ++ B := by
    have hmid := (List.nodup_middle).mp (hAB ▸ hSnd)
    exact (List.nodup_cons.mp hmid).1
  have hidA : id ∉ A := fun h => hidAB (List.mem_append.mpr (Or.inl h))
  have hidB : id ∉ B := fun h => hidAB (List.mem_append.mpr (Or.inr h))
  have hsp := List.pairwise_append.mp (hAB ▸ hsorted)
  have hnextS : next ∈ S := hperm.mem_iff.mpr (by simp [hmem])
  have hnextB : next ∈ B := by
    rcases List.mem_append.mp (hAB ▸ hnextS) with hA | hIB
    · exact absurd (hsp.2.2 next hA id (List.mem_cons_self _ _)) (not_le.mpr hlt)
    · rcases List.mem_cons.mp hIB with he | hB
      · exact absurd (he ▸ hlt) (lt_irrefl _)
      · exact hB
  cases B with
  | nil => exact absurd hnextB (List.not_mem_nil _)
  | cons h0 B' =>
      have hsortedIB : List.Sorted (· ≤ ·) (id :: h0 :: B') := hsp.2.1
      have hid_le : id ≤ h0 := (List.sorted_cons.mp hsortedIB).1 h0 (by simp)
      have hsorted0 : List.Sorted (· ≤ ·) (h0 :: B') := (List.sorted_cons.mp hsortedIB).2
      have hid_ne : id ≠ h0 := fun he => hidB (he ▸ List.mem_cons_self h0 B')
      have hid_lt : id < h0 := lt_of_le_of_ne hid_le hid_ne
      have h0keys : h0 ∈ keys := by
        have h0S : h0 ∈ S := by rw [hAB]; simp
        rcases List.mem_append.mp (hperm.mem_iff.mp h0S) with hk | hidm
        · exact hk
        · have : h0 = id := by simpa using hidm
          exact absurd this.symm hid_ne
      have hnle : next ≤ h0 := hmin h0 h0keys hid_lt
      have hle : h0 ≤ next := by
        rcases List.mem_cons.mp hnextB with he | hB'
        · exact he ▸ le_refl h0
        · exact (List.sorted_cons.mp hsorted0).1 next hB'
      have h0eq : h0 = next := le_antisymm hle hnle
      have hidx : S.indexOf id = A.length := by
        rw [hAB]; exact indexOf_append_self id A _ hidA
      constructor
      · rw [hidx, hAB, getD_append_cons]
        simpa using h0eq
      · rw [hidx, hAB]
        simp only [List.length_append, List.length_cons]
        omega

/-- Closed form of `insStep` on an identifier absent from the local data. -/
theorem insStep_not_mem {es : Registry} {id : Raw} (rec : Record) (raw : Raw)
    (hc : (keysOf es).contains id = false) :
    insStep es raw (id, rec) =
      (if (List.insertionSort (· ≤ ·) (keysOf es ++ [id])).indexOf id =
          (List.insertionSort (· ≤ ·) (keysOf es ++ [id])).length - 1 then
        raw ++ updReplacement id rec ++ ['\n']
      else
        subIns ((List.insertionSort (· ≤ ·) (keysOf es ++ [id])).getD
            ((List.insertionSort (· ≤ ·) (keysOf es ++ [id])).indexOf id + 1) [])
          (insReplacement id rec
            ((List.insertionSort (· ≤ ·) (keysOf es ++ [id])).getD
              ((List.insertionSort (· ≤ ·) (keysOf es ++ [id])).indexOf id + 1) []))
          raw) := by
  simp only [insStep, hc, Bool.false_eq_true, if_false]

/-- C4: for an identifier not present in the parsed local data,
`_insert_dict_in_raw_json` computes its alphabetical position among all
existing identifiers plus itself; if it sorts last the new block is appended
at the end of the raw text, and otherwise it is inserted immediately before
the block of the identifier that alphabetically follows it. -/
theorem claim_C4 (es : Registry) (id : Raw) (rec : Record)
    (hnodup : (keysOf es).Nodup)
    (hsafe : ∀ p ∈ es, safeId p.1 = true ∧ safeRecord p.2 = true)
    (hnew : id ∉ keysOf es) :
    ((∀ k ∈ keysOf es, k < id) →
        insStep es (canonRaw es) (id, rec) =
          canonRaw es ++ updReplacement id rec ++ ['\n']) ∧
      ∀ next, next ∈ keysOf es → id < next →
        (∀ k ∈ keysOf es, id < k → next ≤ k) →
        insStep es (canonRaw es) (id, rec) =
          canonRaw (insertBeforeKey es next id rec) := by
  have hc : (keysOf es).contains id = false := by simpa using hnew
  constructor
  · intro hmax
    rw [insStep_not_mem rec _ hc, sorted_insert_last (keysOf es) id hnew hmax]
    rw [if_pos]
    have hidx := indexOf_append_self id (List.insertionSort (· ≤ ·) (keysOf es)) [] (by
      intro hmem
      exact hnew ((List.perm_insertionSort (· ≤ ·) (keysOf es)).subset hmem))
    rw [hidx]
    simp
  · intro next hmem hlt hmin
    obtain ⟨hget, hne⟩ := sorted_successor (keysOf es) id next hnodup hnew hmem hlt hmin
    rw [insStep_not_mem rec _ hc, if_neg hne, hget]
    have hnextid : safeId next = true := by
      obtain ⟨p, hp, hpeq⟩ := List.mem_map.mp hmem
      exact hpeq ▸ (hsafe p hp).1
    exact subIns_canonRaw hnextid id rec es hsafe

/-- Witness for C4: inserting `groq/b-model` into a registry containing only
`groq/a-model` and `groq/c-model` places it between them. -/
theorem claim_C4_witness :
    insStep [("groq/a-model".toList, [("mode", JVal.jStr "chat")]),
        ("groq/c-model".toList, [("mode", JVal.jStr "chat")])]
      (canonRaw [("groq/a-model".toList, [("mode", JVal.jStr "chat")]),
        ("groq/c-model".toList, [("mode", JVal.jStr "chat")])])
      ("groq/b-model".toList, [("mode", JVal.jStr "chat")]) =
    canonRaw (insertBeforeKey
      [("groq/a-model".toList, [("mode", JVal.jStr "chat")]),
        ("groq/c-model".toList, [("mode", JVal.jStr "chat")])]
      "groq/c-model".toList "groq/b-model".toList [("mode", JVal.jStr "chat")]) :=
  (claim_C4 [("groq/a-model".toList, [("mode", JVal.jStr "chat")]),
        ("groq/c-model".toList, [("mode", JVal.jStr "chat")])]
      "groq/b-model".toList [("mode", JVal.jStr "chat")]
      (by decide) (by decide) (by decide)).2
    "groq/c-model".toList (by decide) (by decide) (by decide)

/-! ## C5: the deprecation pass on a canonical registry text -/

theorem lookupReg_mem {es : Registry} {k : Raw} {r : Record}
    (h : lookupReg es k = some r) : (k, r) ∈ es := by
  induction es with
  | nil => simp [lookupReg] at h
  | cons p t ih =>
      rcases p with ⟨k', r'⟩
      simp only [lookupReg] at h
      split at h
      · rename_i he
        injection h with h2
        subst he
        subst h2
        exact List.mem_cons_self _ _
      · exact List.mem_cons_of_mem _ (ih h)

theorem lookupReg_nodup {es : Registry} (hnd : (keysOf es).Nodup) {k : Raw}
    {r : Record} (h : (k, r) ∈ es) : lookupReg es k = some r := by
  induction es with
  | nil => simp at h
  | cons p t ih =>
      rcases p with ⟨k', r'⟩
      simp only [keysOf, List.map_cons, List.nodup_cons] at hnd
      rcases List.mem_cons.mp h with he | hm
      · rw [Prod.mk.injEq] at he
        simp only [lookupReg]
        rw [if_pos he.1.symm, he.2]
      · have hkt : k ∈ List.map Prod.fst t := by
          simpa using List.mem_map_of_mem Prod.fst hm
        have hne : k' ≠ k := fun he => hnd.1 (he ▸ hkt)
        simp only [lookupReg]
        rw [if_neg hne]
        exact ih hnd.2 hm

theorem updOne_safe {r : Record} (hr : safeRecord r = true) {k : String} {v : JVal}
    (hk : k.toList.all safeStrChar = true) (hv : safeVal v = true) :
    safeRecord (updOne r k v) = true := by
  have h1 := ((Bool.and_eq_true _ _).mp hr).1
  have h2 := ((Bool.and_eq_true _ _).mp hr).2
  unfold updOne
  split
  · unfold safeRecord
    refine (Bool.and_eq_true _ _).mpr ⟨?_, ?_⟩
    · cases r with
      | nil => simp at h1
      | cons a t => simp
    · rw [List.all_eq_true]
      intro kv hkv
      rw [List.mem_map] at hkv
      obtain ⟨kv0, hkv0, rfl⟩ := hkv
      by_cases he : kv0.1 = k
      · simp only [if_pos he]
        exact (Bool.and_eq_true _ _).mpr ⟨hk, hv⟩
      · simp only [if_neg he]
        exact (List.all_eq_true.mp h2) kv0 hkv0
  · unfold safeRecord
    refine (Bool.and_eq_true _ _).mpr ⟨?_, ?_⟩
    · cases r <;> simp
    · rw [List.all_append, h2]
      simp only [Bool.true_and, List.all_cons, List.all_nil, Bool.and_true]
      exact (Bool.and_eq_true _ _).mpr ⟨hk, hv⟩

theorem pyDictUpdate_safe {a : Record} (ha : safeRecord a = true) {b : Record}
    (hb : b.all (fun kv => kv.1.toList.all safeStrChar && safeVal kv.2) = true) :
    safeRecord (pyDictUpdate a b) = true := by
  induction b generalizing a with
  | nil => exact ha
  | cons kv t ih =>
      simp only [List.all_cons, Bool.and_eq_true] at hb
      have hkv := hb.1
      exact ih (updOne_safe ha hkv.1 hkv.2) hb.2

theorem setRec_safe {es : Registry}
    (hsafe : ∀ p ∈ es, safeId p.1 = true ∧ safeRecord p.2 = true)
    {id : Raw} (hid : safeId id = true) {rec : Record}
    (hrec : safeRecord rec = true) :
    ∀ p ∈ setRec es id rec, safeId p.1 = true ∧ safeRecord p.2 = true := by
  intro p hp
  unfold setRec at hp
  rw [List.mem_map] at hp
  obtain ⟨q, hq, rfl⟩ := hp
  by_cases he : q.1 = id
  · simp only [if_pos he]
    exact ⟨(hsafe q hq).1, hrec⟩
  · simp only [if_neg he]
    exact hsafe q hq

/-- `depStep` in terms of the qualifying-record function. -/
theorem depStep_eq (localData : Registry) (raw : Raw) (p : Raw × Record) :
    depStep localData raw p =
      match depRecFor localData p with
      | none => raw
      | some r => subUpd p.1 (updReplacement p.1 r) raw := by
  unfold depStep depRecFor
  cases lookupReg localData p.1 with
  | none => rfl
  | some r0 =>
      by_cases hd : (lookupVal r0 "deprecation_date").isSome = true <;> simp [hd]

theorem depRecFor_some {localData : Registry} {p : Raw × Record} {r : Record}
    (h : depRecFor localData p = some r) :
    ∃ r0, lookupReg localData p.1 = some r0 ∧
      (lookupVal r0 "deprecation_date").isSome = false ∧
      r = pyDictUpdate r0 p.2 := by
  unfold depRecFor at h
  split at h
  · exact Option.noConfusion h
  · rename_i r0 heq
    split at h
    · exact Option.noConfusion h
    · rename_i hd
      injection h with h2
      exact ⟨r0, heq, by simpa using hd, h2.symm⟩

/-- The deprecation pass rewrites a canonical registry text to the canonical
text of the parsed-level result. -/
theorem depPass_canon (localData : Registry)
    (hsafeL : ∀ p ∈ localData, safeId p.1 = true ∧ safeRecord p.2 = true) :
    ∀ dep : List (Raw × Record),
      (∀ p ∈ dep,
        (p.2).all (fun kv => kv.1.toList.all safeStrChar && safeVal kv.2) = true) →
      ∀ es : Registry, (∀ p ∈ es, safeId p.1 = true ∧ safeRecord p.2 = true) →
      updateDeprecatedModelsInRawJson dep localData (canonRaw es) =
        canonRaw (depApply dep localData es) := by
  intro dep
  induction dep with
  | nil => intro _ es _; rfl
  | cons p t ih =>
      intro hdep es hsafe
      have hfold : updateDeprecatedModelsInRawJson (p :: t) localData (canonRaw es) =
          updateDeprecatedModelsInRawJson t localData
            (depStep localData (canonRaw es) p) := rfl
      cases hrec : depRecFor localData p with
      | none =>
          have hstep : depStep localData (canonRaw es) p = canonRaw es := by
            rw [depStep_eq, hrec]
          have happ : depApply (p :: t) localData es = depApply t localData es := by
            unfold depApply
            simp only [List.foldl_cons, hrec]
          rw [hfold, hstep, happ]
          exact ih (fun q hq => hdep q (List.mem_cons_of_mem _ hq)) es hsafe
      | some r =>
          obtain ⟨r0, hl, hnodate, hr⟩ := depRecFor_some hrec
          have hmem := lookupReg_mem hl
          have hid : safeId p.1 = true := (hsafeL _ hmem).1
          have hrsafe : safeRecord r = true := by
            rw [hr]
            exact pyDictUpdate_safe (hsafeL _ hmem).2 (hdep p (List.mem_cons_self _ _))
          have hstep : depStep localData (canonRaw es) p =
              canonRaw (setRec es p.1 r) := by
            rw [depStep_eq, hrec]
            exact subUpd_canonRaw hid hrsafe es hsafe
          have happ : depApply (p :: t) localData es =
              depApply t localData (setRec es p.1 r) := by
            unfold depApply
            simp only [List.foldl_cons, hrec]
          rw [hfold, hstep, happ]
          exact ih (fun q hq => hdep q (List.mem_cons_of_mem _ hq)) _
            (setRec_safe hsafe hid hrsafe)

/-! Pointwise form of the two passes: every write replaces the record of one
key with a value that does not depend on the registry being rewritten. -/

theorem pointFun_cons_pair (p : Raw × Record) (ops : List (Raw × Record))
    (k : Raw) (r : Record) :
    pointFun (p :: ops) (k, r) =
      pointFun ops (if k = p.1 then (k, p.2) else (k, r)) := rfl

theorem pointFun_fst (ops : List (Raw × Record)) (q : Raw × Record) :
    (pointFun ops q).1 = q.1 := by
  induction ops generalizing q with
  | nil => rfl
  | cons p t ih =>
      obtain ⟨k, r⟩ := q
      rw [pointFun_cons_pair]
      by_cases he : k = p.1
      · rw [if_pos he, ih]
      · rw [if_neg he, ih]

theorem map_pointFun_nil (es : Registry) : es.map (pointFun []) = es := by
  induction es with
  | nil => rfl
  | cons q t ih =>
      rw [List.map_cons, ih]
      rfl

theorem remApply_map (R : List (Raw × Record)) (es : Registry) :
    remApply R es = es.map (pointFun R) := by
  induction R generalizing es with
  | nil => exact (map_pointFun_nil es).symm
  | cons p t ih =>
      rw [show remApply (p :: t) es = remApply t (setRec es p.1 p.2) from rfl, ih]
      rw [show setRec es p.1 p.2 =
        es.map (fun q => if q.1 = p.1 then (q.1, p.2) else q) from rfl]
      rw [List.map_map]
      exact List.map_congr_left (fun a _ => rfl)

theorem depApply_map (D : List (Raw × Record)) (l : Registry) (es : Registry) :
    depApply D l es = es.map (pointFun (depOps D l)) := by
  induction D generalizing es with
  | nil => exact (map_pointFun_nil es).symm
  | cons p t ih =>
      cases hrec : depRecFor l p with
      | none =>
          have h1 : depApply (p :: t) l es = depApply t l es := by
            unfold depApply
            simp only [List.foldl_cons, hrec]
          have h2 : depOps (p :: t) l = depOps t l := by
            simp [depOps, List.filterMap_cons, hrec]
          rw [h1, h2, ih]
      | some r =>
          have h1 : depApply (p :: t) l es = depApply t l (setRec es p.1 r) := by
            unfold depApply
            simp only [List.foldl_cons, hrec]
          have h2 : depOps (p :: t) l = (p.1, r) :: depOps t l := by
            simp [depOps, List.filterMap_cons, hrec]
          rw [h1, h2, ih]
          rw [show setRec es p.1 r =
            es.map (fun q => if q.1 = p.1 then (q.1, r) else q) from rfl]
          rw [List.map_map]
          exact List.map_congr_left (fun a _ => rfl)

theorem pointFun_append (a b : List (Raw × Record)) (q : Raw × Record) :
    pointFun (a ++ b) q = pointFun b (pointFun a q) := by
  unfold pointFun
  rw [List.foldl_append]

theorem pointFun_const_or_id (ops : List (Raw × Record)) (k : Raw) :
    (∀ r, pointFun ops (k, r) = (k, r)) ∨
      ∃ rc, ∀ r, pointFun ops (k, r) = (k, rc) := by
  induction ops with
  | nil => exact Or.inl (fun r => rfl)
  | cons p t ih =>
      by_cases he : k = p.1
      · refine Or.inr ⟨(pointFun t (k, p.2)).2, fun r => ?_⟩
        rw [pointFun_cons_pair, if_pos he]
        exact Prod.ext (pointFun_fst t (k, p.2)) rfl
      · rcases ih with hid | ⟨rc, hc⟩
        · refine Or.inl (fun r => ?_)
          rw [pointFun_cons_pair, if_neg he]
          exact hid r
        · refine Or.inr ⟨rc, fun r => ?_⟩
          rw [pointFun_cons_pair, if_neg he]
          exact hc r

theorem pointFun_idem (ops : List (Raw × Record)) (q : Raw × Record) :
    pointFun ops (pointFun ops q) = pointFun ops q := by
  obtain ⟨k, r⟩ := q
  rcases pointFun_const_or_id ops k with hid | ⟨rc, hc⟩
  · rw [hid r, hid r]
  · rw [hc r, hc rc]

theorem pointFun_untouched (k : Raw) (r : Record) :
    ∀ ops : List (Raw × Record), (∀ p ∈ ops, p.1 ≠ k) →
      pointFun ops (k, r) = (k, r) := by
  intro ops
  induction ops with
  | nil => intro _; rfl
  | cons p t ih =>
      intro h
      rw [pointFun_cons_pair, if_neg (fun he => h p (List.mem_cons_self _ _) he.symm)]
      exact ih (fun p' hp' => h p' (List.mem_cons_of_mem _ hp'))

/-- C5: on a canonical registry text, `_update_deprecated_models_in_raw_json`
rewrites the text to the canonical text of the registry in which exactly the
qualifying identifiers (present in the local data and currently lacking a
`deprecation_date`) have their record updated with the scraped date dict;
the pass preserves the top-level key list (never adds an entry), and every
record that already carries a `deprecation_date` survives unchanged. -/
theorem claim_C5 (dep : List (Raw × Record)) (es : Registry)
    (hnodup : (keysOf es).Nodup)
    (hsafe : ∀ p ∈ es, safeId p.1 = true ∧ safeRecord p.2 = true)
    (hdep : ∀ p ∈ dep,
      (p.2).all (fun kv => kv.1.toList.all safeStrChar && safeVal kv.2) = true) :
    updateDeprecatedModelsInRawJson dep es (canonRaw es) =
        canonRaw (depApply dep es es) ∧
      keysOf (depApply dep es es) = keysOf es ∧
      ∀ k r, (k, r) ∈ es → (lookupVal r "deprecation_date").isSome = true →
        (k, r) ∈ depApply dep es es := by
  refine ⟨depPass_canon es hsafe dep hdep es hsafe, ?_, ?_⟩
  · rw [depApply_map]
    unfold keysOf
    rw [List.map_map]
    exact List.map_congr_left (fun a _ => pointFun_fst _ a)
  · intro k r hmem hdate
    rw [depApply_map]
    have huntouch : pointFun (depOps dep es) (k, r) = (k, r) := by
      apply pointFun_untouched
      intro p hp he
      obtain ⟨q, hq, hfq⟩ := List.mem_filterMap.mp hp
      cases hdr : depRecFor es q with
      | none =>
          rw [hdr] at hfq
          exact Option.noConfusion hfq
      | some rr =>
          rw [hdr] at hfq
          injection hfq with hfq
          obtain ⟨r0, hl, hnodate, _⟩ := depRecFor_some hdr
          have hqk : q.1 = k := by
            rw [← hfq] at he
            exact he
          rw [hqk, lookupReg_nodup hnodup hmem] at hl
          injection hl with hl
          rw [← hl, hdate] at hnodate
          exact absurd hnodate (by decide)
    exact List.mem_map.mpr ⟨(k, r), hmem, huntouch⟩

/-- Witness for C5: a one-entry registry whose record lacks a deprecation
date receives the scraped date. -/
theorem claim_C5_witness :
    updateDeprecatedModelsInRawJson
        [("groq/old-model".toList, [("deprecation_date", JVal.jStr "2025-06-01")])]
        [("groq/old-model".toList, [("mode", JVal.jStr "chat")])]
        (canonRaw [("groq/old-model".toList, [("mode", JVal.jStr "chat")])]) =
      canonRaw (depApply
        [("groq/old-model".toList, [("deprecation_date", JVal.jStr "2025-06-01")])]
        [("groq/old-model".toList, [("mode", JVal.jStr "chat")])]
        [("groq/old-model".toList, [("mode", JVal.jStr "chat")])]) :=
  (claim_C5
    [("groq/old-model".toList, [("deprecation_date", JVal.jStr "2025-06-01")])]
    [("groq/old-model".toList, [("mode", JVal.jStr "chat")])]
    (by decide) (by decide) (by decide)).1

/-! ## C1: idempotence of the full merge

The second application of the merge is byte-identical to the first exactly
when the insertion pass never takes its new-identifier branch: the membership
test is against the parsed local data, which is not re-parsed after the first
textual insertion, so a genuinely new identifier is inserted again on the
second run. -/

/-- The insertion/update pass rewrites a canonical registry text to the
canonical text of the parsed-level result when every remote identifier
already exists in the parsed local data. -/
theorem insPass_canon (localData : Registry)
    (hsafeL : ∀ p ∈ localData, safeId p.1 = true ∧ safeRecord p.2 = true) :
    ∀ R : List (Raw × Record),
      (∀ p ∈ R, p.1 ∈ keysOf localData ∧ safeRecord p.2 = true) →
      ∀ es : Registry, (∀ p ∈ es, safeId p.1 = true ∧ safeRecord p.2 = true) →
      insertDictInRawJson R localData (canonRaw es) =
        canonRaw (remApply R es) := by
  intro R
  induction R with
  | nil => intro _ es _; rfl
  | cons p t ih =>
      intro hR es hsafe
      have hmemk : p.1 ∈ keysOf localData := (hR p (List.mem_cons_self _ _)).1
      have hprec : safeRecord p.2 = true := (hR p (List.mem_cons_self _ _)).2
      have hid : safeId p.1 = true := by
        obtain ⟨q, hq, hqe⟩ := List.mem_map.mp hmemk
        exact hqe ▸ (hsafeL q hq).1
      have hc : (keysOf localData).contains p.1 = true := by
        simpa using hmemk
      have hstep : insStep localData (canonRaw es) p =
          canonRaw (setRec es p.1 p.2) := by
        have hstep1 : insStep localData (canonRaw es) p =
            subUpd p.1 (updReplacement p.1 p.2) (canonRaw es) := by
          unfold insStep
          exact if_pos hc
        rw [hstep1]
        exact subUpd_canonRaw hid hprec es hsafe
      have hfold : insertDictInRawJson (p :: t) localData (canonRaw es) =
          insertDictInRawJson t localData (insStep localData (canonRaw es) p) := rfl
      have happ : remApply (p :: t) es = remApply t (setRec es p.1 p.2) := rfl
      rw [hfold, hstep, happ]
      exact ih (fun q hq => hR q (List.mem_cons_of_mem _ hq)) _
        (setRec_safe hsafe hid hprec)

/-- Applying a list of safe constant writes to a safe entry yields a safe
entry. -/
theorem pointFun_safe (ops : List (Raw × Record))
    (hops : ∀ p ∈ ops, safeRecord p.2 = true) (q : Raw × Record)
    (hq : safeId q.1 = true ∧ safeRecord q.2 = true) :
    safeId (pointFun ops q).1 = true ∧ safeRecord (pointFun ops q).2 = true := by
  induction ops generalizing q with
  | nil => exact hq
  | cons p t ih =>
      obtain ⟨k, r⟩ := q
      rw [pointFun_cons_pair]
      by_cases he : k = p.1
      · rw [if_pos he]
        exact ih (fun p' hp' => hops p' (List.mem_cons_of_mem _ hp')) (k, p.2)
          ⟨hq.1, hops p (List.mem_cons_self _ _)⟩
      · rw [if_neg he]
        exact ih (fun p' hp' => hops p' (List.mem_cons_of_mem _ hp')) (k, r) hq

/-- Counterexample to C1: with remote data containing one identifier absent
from the parsed local data (never re-parsed between passes), the merged block
is inserted again by the second run, so the output is not byte-identical. -/
theorem claim_C1_counterexample :
    fullMerge [("groq/b-model".toList, [("mode", JVal.jStr "chat")])] []
        [("groq/a-model".toList, [("mode", JVal.jStr "chat")])]
        (fullMerge [("groq/b-model".toList, [("mode", JVal.jStr "chat")])] []
          [("groq/a-model".toList, [("mode", JVal.jStr "chat")])]
          (canonRaw [("groq/a-model".toList, [("mode", JVal.jStr "chat")])])) ≠
      fullMerge [("groq/b-model".toList, [("mode", JVal.jStr "chat")])] []
        [("groq/a-model".toList, [("mode", JVal.jStr "chat")])]
        (canonRaw [("groq/a-model".toList, [("mode", JVal.jStr "chat")])]) := by
  decide

/-- C1 (amended): the full merge on a canonical registry text is idempotent
whenever every remote identifier already exists in the parsed local data, so
that only block replacements (never insertions of new blocks) occur. -/
theorem claim_C1_amended (R D : List (Raw × Record)) (es : Registry)
    (hsafe : ∀ p ∈ es, safeId p.1 = true ∧ safeRecord p.2 = true)
    (hR : ∀ p ∈ R, p.1 ∈ keysOf es ∧ safeRecord p.2 = true)
    (hD : ∀ p ∈ D,
      (p.2).all (fun kv => kv.1.toList.all safeStrChar && safeVal kv.2) = true) :
    fullMerge R D es (fullMerge R D es (canonRaw es)) =
      fullMerge R D es (canonRaw es) := by
  have hopsSafe : ∀ p ∈ R ++ depOps D es, safeRecord p.2 = true := by
    intro p hp
    rcases List.mem_append.mp hp with hpR | hpD
    · exact (hR p hpR).2
    · obtain ⟨q, hq, hfq⟩ := List.mem_filterMap.mp hpD
      cases hdr : depRecFor es q with
      | none =>
          rw [hdr] at hfq
          exact Option.noConfusion hfq
      | some rr =>
          rw [hdr] at hfq
          injection hfq with hfq
          obtain ⟨r0, hl, _, hreq⟩ := depRecFor_some hdr
          have hmem := lookupReg_mem hl
          rw [← hfq]
          show safeRecord rr = true
          rw [hreq]
          exact pyDictUpdate_safe (hsafe _ hmem).2 (hD q hq)
  have hpass : ∀ es' : Registry,
      (∀ p ∈ es', safeId p.1 = true ∧ safeRecord p.2 = true) →
      fullMerge R D es (canonRaw es') =
        canonRaw (es'.map (pointFun (R ++ depOps D es))) := by
    intro es' hsafe'
    have hsafeRem : ∀ p ∈ remApply R es',
        safeId p.1 = true ∧ safeRecord p.2 = true := by
      rw [remApply_map]
      intro p hp
      obtain ⟨q, hq, rfl⟩ := List.mem_map.mp hp
      exact pointFun_safe R (fun p' hp' => (hR p' hp').2) q (hsafe' q hq)
    unfold fullMerge
    rw [insPass_canon es hsafe R hR es' hsafe',
      depPass_canon es hsafe D hD (remApply R es') hsafeRem,
      remApply_map, depApply_map, List.map_map]
    exact congrArg canonRaw (List.map_congr_left (fun a _ =>
      (pointFun_append R (depOps D es) a).symm))
  have hsafeF : ∀ p ∈ es.map (pointFun (R ++ depOps D es)),
      safeId p.1 = true ∧ safeRecord p.2 = true := by
    intro p hp
    obtain ⟨q, hq, rfl⟩ := List.mem_map.mp hp
    exact pointFun_safe _ hopsSafe q (hsafe q hq)
  rw [hpass es hsafe, hpass (es.map (pointFun (R ++ depOps D es))) hsafeF,
    List.map_map]
  exact congrArg canonRaw (List.map_congr_left (fun a _ => by
    show pointFun (R ++ depOps D es) (pointFun (R ++ depOps D es) a) =
      pointFun (R ++ depOps D es) a
    exact pointFun_idem _ a))

/-- Witness for the amended C1: a remote record for an existing identifier
and a deprecation date for it merge idempotently. -/
theorem claim_C1_witness :
    fullMerge
        [("groq/a-model".toList,
          [("mode", JVal.jStr "chat"), ("litellm_provider", JVal.jStr "groq")])]
        [("groq/a-model".toList, [("deprecation_date", JVal.jStr "2025-06-01")])]
        [("groq/a-model".toList, [("mode", JVal.jStr "chat")])]
        (fullMerge
          [("groq/a-model".toList,
            [("mode", JVal.jStr "chat"), ("litellm_provider", JVal.jStr "groq")])]
          [("groq/a-model".toList, [("deprecation_date", JVal.jStr "2025-06-01")])]
          [("groq/a-model".toList, [("mode", JVal.jStr "chat")])]
          (canonRaw [("groq/a-model".toList, [("mode", JVal.jStr "chat")])])) =
      fullMerge
        [("groq/a-model".toList,
          [("mode", JVal.jStr "chat"), ("litellm_provider", JVal.jStr "groq")])]
        [("groq/a-model".toList, [("deprecation_date", JVal.jStr "2025-06-01")])]
        [("groq/a-model".toList, [("mode", JVal.jStr "chat")])]
        (canonRaw [("groq/a-model".toList, [("mode", JVal.jStr "chat")])]) :=
  claim_C1_amended
    [("groq/a-model".toList,
      [("mode", JVal.jStr "chat"), ("litellm_provider", JVal.jStr "groq")])]
    [("groq/a-model".toList, [("deprecation_date", JVal.jStr "2025-06-01")])]
    [("groq/a-model".toList, [("mode", JVal.jStr "chat")])]
    (by decide) (by decide) (by decide)

end UpdateGroq
